import Mathlib

/-!
# tsh: job control of a tiny shell

A shallow embedding of `tsh.cc` (the dispatcher `eval` / `builtin_cmd` /
`do_bgfg` / `waitfg` and the three signal handlers) together with a model of
the job table it calls into.

* The process state the code reads and writes is the record `Shell`: the job
  table, the text written by the `printf` calls of `tsh.cc`, the `kill` calls
  made, whether SIGCHLD is in the signal mask, and `errno`. What `listjobs`,
  `addjob` and `unix_error` write is not recorded.
* `pid_t` and `int` values are `Int`; `atoi` is `strtol` narrowed to 32 bits.
  `SIGCONT` and `ECHILD` have their Linux values.
* The operating system is an explicit input: `waitpid` is a script of
  status changes followed by a final non-positive return, `fork` returns a
  pid chosen by the environment. Only a failing `waitpid` writes `errno`.
* The job table of `jobs.h` is not among the sources; its operations are
  modelled from the specification (slots in slot order, a jid counter). A
  pointer `struct job_t *` is a slot index. It can outlive its job: `do_bgfg`
  does not block SIGCHLD, so the job can be reaped while `jobp` is in use; the
  freed slot then reads pid 0 and a state written through `jobp` lands in it.
* The main control flow is cut into program points (`Pc`) so that a signal
  handler can be interleaved between any two statements that touch the shared
  state: in `eval` the blocking, the fork, `addjob`, the print and the
  unblocking; in `do_bgfg` the lookup, the `kill`, the print, each write of
  `jobp->state` and the read of `jobp->pid` for `waitfg`; each test of the
  loop of `waitfg`. One call of a job-table operation and one `printf` are one
  step each; a handler runs to its end once started.
-/

namespace Tsh

/-! ## Data model -/

/-- Job states used by `tsh.cc`: `FG`, `BG`, `ST`. -/
inductive JobState where
  | FG
  | BG
  | ST
  deriving DecidableEq, Repr

/-- One tracked child process (`struct job_t`). -/
structure job_t where
  pid : Int
  jid : Int
  state : JobState
  cmdline : String
  deriving DecidableEq, Repr

/-- Modelled from the spec: `jobs.h` (the global `jobs` array and its
operations) is not part of the sources. The table is a fixed number of slots in
slot order, each free or holding a job, plus the counter that hands out the
next jid. The capacity is the number of slots. -/
structure JobTable where
  slots : List (Option job_t)
  nextjid : Int
  deriving DecidableEq, Repr

/-- Modelled from the spec: `initjobs`, every slot free, jid counter at 1. -/
def initjobs (capacity : Nat) : JobTable :=
  { slots := List.replicate capacity none, nextjid := 1 }

/-- Index of the first slot that holds a job satisfying `p`. A pointer
`struct job_t *` into the table is such an index. -/
def findJob (p : job_t → Bool) : List (Option job_t) → Option Nat
  | [] => none
  | none :: rest => (findJob p rest).map Nat.succ
  | some j :: rest => if p j then some 0 else (findJob p rest).map Nat.succ

/-- Index of the first free slot. A slot is free when it holds no job; pid 0 is
the mark of a free slot, so a freed slot that only carries a state written
through a stale pointer (see `setState`) is free too. -/
def findFree : List (Option job_t) → Option Nat
  | [] => none
  | none :: _ => some 0
  | some j :: rest => if j.pid = 0 then some 0 else (findFree rest).map Nat.succ

/-- Modelled from the spec: `getjobpid` (find_by_pid), a pointer to the first
job with this pid, or NULL. -/
def getjobpid (t : JobTable) (pid : Int) : Option Nat :=
  findJob (fun j => j.pid == pid) t.slots

/-- Modelled from the spec: `getjobjid` (find_by_jid), a pointer to the first
job with this jid, or NULL. -/
def getjobjid (t : JobTable) (jid : Int) : Option Nat :=
  findJob (fun j => j.jid == jid) t.slots

/-- The job a pointer points at. -/
def jobAt (t : JobTable) (i : Nat) : Option job_t :=
  (t.slots[i]?).join

/-- Modelled from the spec: `pid2jid`, the jid of the job with this pid; 0
(no jid is 0) when there is none. -/
def pid2jid (t : JobTable) (pid : Int) : Int :=
  match getjobpid t pid with
  | none => 0
  | some i =>
    match jobAt t i with
    | some j => j.jid
    | none => 0

/-- Modelled from the spec: `fgpid` (foreground_job), the pid of the first job
in state FG; 0 when there is none, which is what `sigint_handler` tests. -/
def fgpid (t : JobTable) : Int :=
  match findJob (fun j => j.state == JobState.FG) t.slots with
  | none => 0
  | some i =>
    match jobAt t i with
    | some j => j.pid
    | none => 0

/-- Modelled from the spec: `addjob` (add). Fails (`none`) when no slot is
free; otherwise the first free slot receives the job with the next jid. -/
def addjob (t : JobTable) (pid : Int) (state : JobState) (cmdline : String) :
    Option JobTable :=
  match findFree t.slots with
  | none => none
  | some i =>
    some { slots := t.slots.set i (some { pid := pid, jid := t.nextjid, state := state,
                                          cmdline := cmdline }),
           nextjid := t.nextjid + 1 }

/-- Modelled from the spec: `deletejob` (remove). Frees the slot of the first
job with this pid, nothing when there is none; the jid counter restarts from 1
once the table is empty. -/
def deletejob (t : JobTable) (pid : Int) : JobTable :=
  match getjobpid t pid with
  | none => t
  | some i =>
    let slots := t.slots.set i none
    { slots := slots, nextjid := if slots.all Option.isNone then 1 else t.nextjid }

/-- Modelled from the spec: the read `jobp->pid` through a pointer into the
table. The slot of a removed job reads pid 0, the mark of a free slot. -/
def pidAt (t : JobTable) (i : Nat) : Int :=
  match jobAt t i with
  | none => 0
  | some j => j.pid

/-- The assignment `jobp->state = st` through a pointer into the table. When
the job was removed in the meantime the state is written into its freed slot,
which keeps pid 0, jid 0 and an empty command line. -/
def setState (t : JobTable) (i : Nat) (st : JobState) : JobTable :=
  match jobAt t i with
  | none =>
    { t with slots := t.slots.set i (some { pid := 0, jid := 0, state := st,
                                            cmdline := "" }) }
  | some j => { t with slots := t.slots.set i (some { j with state := st }) }

/-- The jobs of the table that are in state FG, in slot order. -/
def fgJobs (t : JobTable) : List job_t :=
  (t.slots.filterMap id).filter (fun j => j.state == JobState.FG)

/-- Process state of the shell that `tsh.cc` reads and writes. -/
structure Shell where
  /-- the global job table -/
  jobs : JobTable
  /-- text written by the printf calls of tsh.cc, in order -/
  out : List String
  /-- the calls kill(target, sig) made, in order -/
  sent : List (Int × Int)
  /-- whether SIGCHLD is in the signal mask of the shell process -/
  blocked : Bool
  /-- the value of errno -/
  errno : Int
  deriving DecidableEq, Repr

def SIGCONT : Int := 18

def ECHILD : Int := 10

def printf (s : Shell) (text : String) : Shell :=
  { s with out := s.out ++ [text] }

def kill (s : Shell) (target sig : Int) : Shell :=
  { s with sent := s.sent ++ [(target, sig)] }

/-! ## atoi -/

def LONG_MAX : Int := 2 ^ 63 - 1

def LONG_MIN : Int := -(2 ^ 63)

/-- C `isspace` in the C locale. -/
def isspace (c : Char) : Bool :=
  c == ' ' || c == '\t' || c == '\n' || c == '\x0b' || c == '\x0c' || c == '\r'

/-- Value of the longest run of decimal digits at the start of the text. -/
def digitsValue : List Char → Nat → Nat
  | [], acc => acc
  | c :: cs, acc => if c.isDigit then digitsValue cs (acc * 10 + (c.toNat - 48)) else acc

/-- C `strtol(s, NULL, 10)`: white space, an optional sign, digits; the value
saturates at the bounds of `long`. -/
def strtol (s : List Char) : Int :=
  match s.dropWhile isspace with
  | [] => 0
  | c :: cs =>
    if c = '-' then max LONG_MIN (-(digitsValue cs 0 : Int))
    else if c = '+' then min LONG_MAX (digitsValue cs 0 : Int)
    else min LONG_MAX (digitsValue (c :: cs) 0 : Int)

/-- Conversion of a `long` to `int` (two's complement, 32 bits). -/
def toInt32 (x : Int) : Int :=
  (x + 2 ^ 31) % 2 ^ 32 - 2 ^ 31

/-- C `atoi`: `(int) strtol(s, NULL, 10)`. -/
def atoi (s : List Char) : Int :=
  toInt32 (strtol s)

/-! ## do_bgfg, waitfg -/

/-- Lines 222-232 of `do_bgfg`, once `jobp` is resolved: continue the job's
process group, then `bg` prints and sets BG, `fg` sets FG and calls `waitfg`.
The second component is the argument of the pending `waitfg` call, if any. -/
def resume (s : Shell) (cmd : String) (jobp : Nat) : Shell × Option Int :=
  match jobAt s.jobs jobp with
  | none => (s, none)
  | some j =>
    let s1 := kill s (-j.pid) SIGCONT
    let s2 :=
      if cmd = "bg" then
        let s1p := printf s1 ("[" ++ toString (pid2jid s1.jobs j.pid) ++ "] (" ++
                              toString j.pid ++ ")\n")
        { s1p with jobs := setState s1p.jobs jobp JobState.BG }
      else s1
    if cmd = "fg" then
      ({ s2 with jobs := setState s2.jobs jobp JobState.FG }, some j.pid)
    else (s2, none)

/-- The builtin `bg` / `fg` (`do_bgfg`) run without interruption, from its
entry up to the call of `waitfg`. `argv` is the argument vector, `argv[0]`
first. The step machine below runs the same statements one by one
(`do_bgfg_enter`, `advance`; `do_bgfg_steps_agree`). -/
def do_bgfg (s : Shell) (argv : List String) : Shell × Option Int :=
  match argv with
  | [] => (s, none)
  | cmd :: rest =>
    match rest with
    | [] => (printf s (cmd ++ " command requires PID or %jobid argument\n"), none)
    | arg :: _ =>
      match arg.data with
      | [] => (printf s (cmd ++ ": argument must be a PID or %jobid\n"), none)
      | c :: cs =>
        if c.isDigit then
          let pid := atoi (c :: cs)
          match getjobpid s.jobs pid with
          | none => (printf s ("(" ++ toString pid ++ "): No such process\n"), none)
          | some jobp => resume s cmd jobp
        else if c = '%' then
          let jid := atoi cs
          match getjobjid s.jobs jid with
          | none => (printf s (arg ++ ": No such job\n"), none)
          | some jobp => resume s cmd jobp
        else (printf s (cmd ++ ": argument must be a PID or %jobid\n"), none)

/-- One test of the loop condition of `waitfg`: true while the loop spins. -/
def waitfg_spins (s : Shell) (pid : Int) : Bool :=
  pid == fgpid s.jobs

/-! ## Signal handlers -/

/-- What `waitpid` stores in `status` for a child whose state changed
(WIFEXITED / WIFSIGNALED / WIFSTOPPED). -/
inductive Status where
  | exited (code : Int)
  | signaled (sig : Int)
  | stopped (sig : Int)
  deriving DecidableEq, Repr

/-- A return of `waitpid` that is not a child: 0 (children exist, none
changed state; errno untouched) or -1 with errno set. -/
inductive WaitFinal where
  | zero
  | fail (err : Int)
  deriving DecidableEq, Repr

/-- How a handler invocation ends. -/
inductive Outcome where
  | returned
  | fatal (msg : String)
  | segfault
  deriving DecidableEq, Repr

/-- How the `while` loop of `sigchld_handler` is left. -/
inductive LoopExit where
  | done
  | stop_return
  | null_deref
  deriving DecidableEq, Repr

def terminatedLine (jid pid sig : Int) : String :=
  "Job [" ++ toString jid ++ "] (" ++ toString pid ++ ") terminated by signal " ++
    toString sig ++ "\n"

def stoppedLine (jid pid sig : Int) : String :=
  "Job [" ++ toString jid ++ "] (" ++ toString pid ++ ") stopped by signal " ++
    toString sig ++ "\n"

/-- The `while` loop of `sigchld_handler` (lines 257-269) run on the successive
positive returns `evs` of `waitpid`. An entry whose pid is not positive ends the
loop, as the loop test does. -/
def reap : Shell → List (Int × Status) → Shell × LoopExit
  | s, [] => (s, LoopExit.done)
  | s, (wpid, status) :: rest =>
    if 0 < wpid then
      match status with
      | Status.signaled sig =>
        let s1 := printf s (terminatedLine (pid2jid s.jobs wpid) wpid sig)
        reap { s1 with jobs := deletejob s1.jobs wpid } rest
      | Status.stopped sig =>
        let s1 := printf s (stoppedLine (pid2jid s.jobs wpid) wpid sig)
        match getjobpid s1.jobs wpid with
        | none => (s1, LoopExit.null_deref)
        | some jobp => ({ s1 with jobs := setState s1.jobs jobp JobState.ST },
                        LoopExit.stop_return)
      | Status.exited _ =>
        reap { s with jobs := deletejob s.jobs wpid } rest
    else (s, LoopExit.done)

/-- The handler `sigchld_handler`: the loop, then the tests of errno of lines
271-277. `fin` is the non-positive return of `waitpid` that ends the loop. -/
def sigchld_handler (s : Shell) (evs : List (Int × Status)) (fin : WaitFinal) :
    Shell × Outcome :=
  match reap s evs with
  | (s1, LoopExit.stop_return) => (s1, Outcome.returned)
  | (s1, LoopExit.null_deref) => (s1, Outcome.segfault)
  | (s1, LoopExit.done) =>
    let s2 : Shell :=
      match fin with
      | WaitFinal.zero => s1
      | WaitFinal.fail err => { s1 with errno := err }
    if s2.errno = 0 then (s2, Outcome.returned)
    else if s2.errno ≠ ECHILD then (s2, Outcome.fatal "waitpid error")
    else (s2, Outcome.returned)

/-- The handler `sigint_handler`. -/
def sigint_handler (s : Shell) (sig : Int) : Shell :=
  let pid := fgpid s.jobs
  if pid ≠ 0 then kill s (-pid) sig else s

/-- The handler `sigtstp_handler`. -/
def sigtstp_handler (s : Shell) (sig : Int) : Shell :=
  let pid := fgpid s.jobs
  if pid ≠ 0 then kill s (-pid) sig else s

/-! ## eval as a step machine -/

/-- Program points of the main control flow of the shell process. -/
inductive Pc where
  /-- in the read loop of `main`, between two calls of `eval` -/
  | read_loop
  /-- in `eval`, line 139 executed (SIGCHLD blocked), before `spawn_child` -/
  | eval_blocked (bg : Bool) (cmdline : String)
  /-- in `eval`, `spawn_child` returned the child pid, before `addjob` -/
  | eval_forked (pid : Int) (bg : Bool) (cmdline : String)
  /-- in `eval`, `addjob(jobs, pid, FG, cmdline)` succeeded, before line 147 -/
  | eval_fg_added (pid : Int)
  /-- in `eval`, `addjob(jobs, pid, BG, cmdline)` succeeded, before line 153 -/
  | eval_bg_added (pid : Int) (cmdline : String)
  /-- in `eval`, line 153 executed, before line 154 -/
  | eval_bg_printed
  /-- in `do_bgfg`, `jobp` resolved (line 204 or 212), before line 222 -/
  | bgfg_resolved (cmd : String) (jobp : Nat)
  /-- in `do_bgfg`, line 222 executed, before the test of line 224 -/
  | bgfg_killed (cmd : String) (jobp : Nat)
  /-- in `do_bgfg`, line 225 executed, before line 226 -/
  | bgfg_printed (cmd : String) (jobp : Nat)
  /-- in `do_bgfg`, before the test of line 229 -/
  | bgfg_before_fg (cmd : String) (jobp : Nat)
  /-- in `do_bgfg`, line 230 executed, before `jobp->pid` is read for line 231 -/
  | bgfg_fg_set (jobp : Nat)
  /-- in the loop of `waitfg(pid)` -/
  | waitfg (pid : Int)
  /-- the shell process has ended (exit, or a crash in a handler) -/
  | exited
  deriving DecidableEq, Repr

/-- The shell process: its state and where its main control flow stands. -/
structure Config where
  sh : Shell
  pc : Pc
  deriving DecidableEq, Repr

/-- What `builtin_cmd` did. -/
inductive Builtin where
  /-- `exit(0)` was called -/
  | quit
  /-- returned 1 without calling `do_bgfg` -/
  | handled
  /-- line 179: `do_bgfg(argv)` is called, 1 is returned after it -/
  | calls_do_bgfg
  /-- returned 0 -/
  | external
  deriving DecidableEq, Repr

/-- The function `builtin_cmd`, up to its call of `do_bgfg`. What `listjobs`
writes is not recorded in `out`; it leaves the table as it is. -/
def builtin_cmd (s : Shell) (argv : List String) : Shell × Builtin :=
  match argv with
  | [] => (s, Builtin.external)
  | cmd :: _ =>
    if cmd = "quit" then (s, Builtin.quit)
    else if cmd = "&" then (s, Builtin.handled)
    else if cmd = "jobs" then (s, Builtin.handled)
    else if cmd = "bg" ∨ cmd = "fg" then (s, Builtin.calls_do_bgfg)
    else (s, Builtin.external)

/-- The function `do_bgfg` from its entry to its first program point (lines
192-220): either a message is printed and it returns, or `jobp` is resolved.
The same tests as in `do_bgfg`. -/
def do_bgfg_enter (s : Shell) (argv : List String) : Config :=
  match argv with
  | [] => { sh := s, pc := Pc.read_loop }
  | cmd :: rest =>
    match rest with
    | [] => { sh := printf s (cmd ++ " command requires PID or %jobid argument\n"),
              pc := Pc.read_loop }
    | arg :: _ =>
      match arg.data with
      | [] => { sh := printf s (cmd ++ ": argument must be a PID or %jobid\n"),
                pc := Pc.read_loop }
      | c :: cs =>
        if c.isDigit then
          let pid := atoi (c :: cs)
          match getjobpid s.jobs pid with
          | none => { sh := printf s ("(" ++ toString pid ++ "): No such process\n"),
                      pc := Pc.read_loop }
          | some jobp => { sh := s, pc := Pc.bgfg_resolved cmd jobp }
        else if c = '%' then
          let jid := atoi cs
          match getjobjid s.jobs jid with
          | none => { sh := printf s (arg ++ ": No such job\n"), pc := Pc.read_loop }
          | some jobp => { sh := s, pc := Pc.bgfg_resolved cmd jobp }
        else { sh := printf s (cmd ++ ": argument must be a PID or %jobid\n"),
               pc := Pc.read_loop }

/-- The function `eval` from its entry to the first program point: `quit`, `&`
and `jobs` run to their end, `bg` / `fg` enter `do_bgfg`; for any other command
SIGCHLD is blocked (lines 137-139). `argv` and `bg` are what `parseline` made
of `cmdline`. -/
def eval_enter (s : Shell) (argv : List String) (bg : Bool) (cmdline : String) : Config :=
  match argv with
  | [] => { sh := s, pc := Pc.read_loop }
  | _ :: _ =>
    match builtin_cmd s argv with
    | (s1, Builtin.quit) => { sh := s1, pc := Pc.exited }
    | (s1, Builtin.handled) => { sh := s1, pc := Pc.read_loop }
    | (s1, Builtin.calls_do_bgfg) => do_bgfg_enter s1 argv
    | (s1, Builtin.external) =>
      { sh := { s1 with blocked := true }, pc := Pc.eval_blocked bg cmdline }

/-- The next statement of the main control flow inside `eval`, `do_bgfg` or
`waitfg`. In `do_bgfg` every read and write through `jobp` is a step of its
own. -/
def advance (c : Config) : Option Config :=
  match c.pc with
  | Pc.eval_forked pid bg cmdline =>
    if !bg then
      match addjob c.sh.jobs pid JobState.FG cmdline with
      | none => some { c with pc := Pc.read_loop }
      | some t => some { sh := { c.sh with jobs := t }, pc := Pc.eval_fg_added pid }
    else
      match addjob c.sh.jobs pid JobState.BG cmdline with
      | none => some { c with pc := Pc.read_loop }
      | some t => some { sh := { c.sh with jobs := t }, pc := Pc.eval_bg_added pid cmdline }
  | Pc.eval_fg_added pid =>
    some { sh := { c.sh with blocked := false }, pc := Pc.waitfg pid }
  | Pc.eval_bg_added pid cmdline =>
    some { sh := printf c.sh ("[" ++ toString (pid2jid c.sh.jobs pid) ++ "] (" ++
                              toString pid ++ ") " ++ cmdline),
           pc := Pc.eval_bg_printed }
  | Pc.eval_bg_printed =>
    some { sh := { c.sh with blocked := false }, pc := Pc.read_loop }
  | Pc.bgfg_resolved cmd jobp =>
    some { sh := kill c.sh (-(pidAt c.sh.jobs jobp)) SIGCONT, pc := Pc.bgfg_killed cmd jobp }
  | Pc.bgfg_killed cmd jobp =>
    if cmd = "bg" then
      some { sh := printf c.sh ("[" ++ toString (pid2jid c.sh.jobs (pidAt c.sh.jobs jobp)) ++
                                "] (" ++ toString (pidAt c.sh.jobs jobp) ++ ")\n"),
             pc := Pc.bgfg_printed cmd jobp }
    else some { c with pc := Pc.bgfg_before_fg cmd jobp }
  | Pc.bgfg_printed cmd jobp =>
    some { sh := { c.sh with jobs := setState c.sh.jobs jobp JobState.BG },
           pc := Pc.bgfg_before_fg cmd jobp }
  | Pc.bgfg_before_fg cmd jobp =>
    if cmd = "fg" then
      some { sh := { c.sh with jobs := setState c.sh.jobs jobp JobState.FG },
             pc := Pc.bgfg_fg_set jobp }
    else some { c with pc := Pc.read_loop }
  | Pc.bgfg_fg_set jobp =>
    some { c with pc := Pc.waitfg (pidAt c.sh.jobs jobp) }
  | Pc.waitfg pid =>
    if waitfg_spins c.sh pid then some c else some { c with pc := Pc.read_loop }
  | _ => none

/-- The main control flow run without interruption until it leaves `do_bgfg`
(at most `fuel` statements). -/
def settle : Nat → Config → Config
  | 0, c => c
  | fuel + 1, c =>
    match c.pc with
    | Pc.bgfg_resolved _ _ | Pc.bgfg_killed _ _ | Pc.bgfg_printed _ _
    | Pc.bgfg_before_fg _ _ | Pc.bgfg_fg_set _ =>
      match advance c with
      | some c1 => settle fuel c1
      | none => c
    | _ => c

/-- What the environment makes happen next. -/
inductive Action where
  /-- the read loop read `cmdline`, parsed by `parseline`, and calls `eval` -/
  | command (argv : List String) (bg : Bool) (cmdline : String)
  /-- the call `Fork()` of `spawn_child` returns `pid` in the shell process -/
  | fork_returns (pid : Int)
  /-- the main control flow executes its next statement -/
  | advance
  /-- SIGCHLD is delivered and `sigchld_handler` runs on this `waitpid` script -/
  | sigchld (evs : List (Int × Status)) (fin : WaitFinal)
  /-- SIGINT is delivered -/
  | sigint (sig : Int)
  /-- SIGTSTP is delivered -/
  | sigtstp (sig : Int)
  deriving DecidableEq, Repr

/-- One step of the shell process. `none`: the action cannot happen here. The
handler of SIGCHLD runs only while SIGCHLD is not blocked. -/
def step (c : Config) : Action → Option Config
  | Action.command argv bg cmdline =>
    if c.pc = Pc.read_loop then some (eval_enter c.sh argv bg cmdline) else none
  | Action.fork_returns pid =>
    match c.pc with
    | Pc.eval_blocked bg cmdline =>
      if 0 < pid then some { c with pc := Pc.eval_forked pid bg cmdline } else none
    | _ => none
  | Action.advance => advance c
  | Action.sigchld evs fin =>
    if c.pc = Pc.exited ∨ c.sh.blocked = true then none
    else
      match sigchld_handler c.sh evs fin with
      | (s1, Outcome.returned) => some { c with sh := s1 }
      | (s1, _) => some { sh := s1, pc := Pc.exited }
  | Action.sigint sig =>
    if c.pc = Pc.exited then none else some { c with sh := sigint_handler c.sh sig }
  | Action.sigtstp sig =>
    if c.pc = Pc.exited then none else some { c with sh := sigtstp_handler c.sh sig }

/-- The steps of a list of actions, one after the other. -/
def run : Config → List Action → Option Config
  | c, [] => some c
  | c, a :: rest =>
    match step c a with
    | none => none
    | some c1 => run c1 rest

/-- The shell process when `main` enters its read loop: `initjobs` has run,
nothing printed, no signal blocked. -/
def startConfig (capacity : Nat) (errno0 : Int) : Config :=
  { sh := { jobs := initjobs capacity, out := [], sent := [], blocked := false,
            errno := errno0 },
    pc := Pc.read_loop }

/-! ## Predicates used by the statements -/

/-- No two jobs of the table have the same pid. -/
def PidsUnique (t : JobTable) : Prop :=
  ((t.slots.filterMap id).map (fun j => j.pid)).Nodup

/-- No two jobs of the table have the same jid. -/
def JidsUnique (t : JobTable) : Prop :=
  ((t.slots.filterMap id).map (fun j => j.jid)).Nodup

instance (t : JobTable) : Decidable (PidsUnique t) := by
  unfold PidsUnique; infer_instance

instance (t : JobTable) : Decidable (JidsUnique t) := by
  unfold JidsUnique; infer_instance

/-- The first job of a slot list that satisfies `p`. -/
def firstJob (p : job_t → Bool) (l : List (Option job_t)) : Option job_t :=
  (findJob p l).bind (fun i => (l[i]?).join)

/-- The claimed reading of a well-formed target of `bg` / `fg`: a non-empty
string of decimal digits, or `%` followed by a non-empty string of decimal
digits. -/
def spec_wellFormedTarget (arg : String) : Bool :=
  match arg.data with
  | [] => false
  | c :: cs =>
    if c = '%' then !cs.isEmpty && cs.all Char.isDigit
    else (c :: cs).all Char.isDigit

/-- A stopped job, used in the examples. -/
def demoJob : job_t :=
  { pid := 12, jid := 1, state := JobState.ST, cmdline := "/bin/sleep 5\n" }

/-- A table of three slots: a stopped job, a free slot, a background job. -/
def demoTable : JobTable :=
  { slots := [some demoJob, none,
              some { pid := 34, jid := 2, state := JobState.BG, cmdline := "/bin/ls &\n" }],
    nextjid := 3 }

/-- A shell state around `demoTable`. -/
def demoShell : Shell :=
  { jobs := demoTable, out := [], sent := [], blocked := false, errno := 0 }

/-- A `waitpid` script of two terminations: the child 12 killed by signal 9
and a child 77, not in `demoTable`, that exited. -/
def demoTerminations : List (Int × Status) :=
  [(12, Status.signaled 9), (77, Status.exited 0)]

/-- A shell state whose table has a stopped job and a foreground job. -/
def demoFgShell : Shell :=
  { jobs := { slots := [some demoJob,
                        some { pid := 56, jid := 2, state := JobState.FG,
                               cmdline := "/bin/cat\n" }],
              nextjid := 3 },
    out := [], sent := [], blocked := false, errno := 0 }

/-- A slot after the jobs whose pid is in `pids` have been removed. -/
def keepOutside (pids : List Int) : Option job_t → Option job_t
  | none => none
  | some j => if j.pid ∈ pids then none else some j

/-- The line `sigchld_handler` prints for a reaped child, if any, with the jid
looked up in table `t`. -/
def reportOf (t : JobTable) (e : Int × Status) : Option String :=
  match e.2 with
  | Status.signaled sig => some (terminatedLine (pid2jid t e.1) e.1 sig)
  | _ => none

/-- The status is a stop (WIFSTOPPED). -/
def Status.isStop : Status → Bool
  | Status.stopped _ => true
  | _ => false

/-- The jobs in state FG among a list of slots, in slot order. -/
def fgOf (l : List (Option job_t)) : List job_t :=
  (l.filterMap id).filter (fun j => j.state == JobState.FG)

/-- Program points of `eval` between the blocking of SIGCHLD (line 139) and
its unblocking (line 147 or 154). -/
def blockedAt : Pc → Bool
  | Pc.eval_blocked _ _ => true
  | Pc.eval_forked _ _ _ => true
  | Pc.eval_fg_added _ => true
  | Pc.eval_bg_added _ _ => true
  | Pc.eval_bg_printed => true
  | _ => false

/-- Invariant of the shell process on the foreground jobs: while the main flow
registers a foreground job or waits in `waitfg(pid)`, at most one job is in
state FG and it has that pid; between lines 230 and 231 of `do_bgfg` at most
one, in the slot `jobp` points at; after the process has ended at most one; at
every other program point none. -/
def InvFG (c : Config) : Prop :=
  match c.pc with
  | Pc.eval_fg_added pid =>
    (fgJobs c.sh.jobs).length ≤ 1 ∧ ∀ j ∈ fgJobs c.sh.jobs, j.pid = pid
  | Pc.waitfg pid =>
    (fgJobs c.sh.jobs).length ≤ 1 ∧ ∀ j ∈ fgJobs c.sh.jobs, j.pid = pid
  | Pc.bgfg_fg_set jobp =>
    (fgJobs c.sh.jobs).length ≤ 1 ∧
      ∀ (k : Nat) (j : job_t), c.sh.jobs.slots[k]? = some (some j) →
        j.state = JobState.FG → k = jobp
  | Pc.exited => (fgJobs c.sh.jobs).length ≤ 1
  | _ => fgJobs c.sh.jobs = []

/-- Invariant of the shell process on the signal mask: SIGCHLD is blocked at
the program points of `blockedAt`. -/
def InvMask (c : Config) : Prop :=
  blockedAt c.pc = true → c.sh.blocked = true

/-- The shell waiting in `waitfg(100)` for its first foreground job. -/
def demoWaiting : Config :=
  { sh := { jobs := { slots := [some { pid := 100, jid := 1, state := JobState.FG,
                                       cmdline := "/bin/sleep 5\n" }, none],
                      nextjid := 2 },
            out := [], sent := [], blocked := false, errno := 0 },
    pc := Pc.waitfg 100 }

/-- The shell in `eval` right after `Fork()` returned pid 100. -/
def demoForked : Config :=
  { sh := { jobs := initjobs 2, out := [], sent := [], blocked := true, errno := 0 },
    pc := Pc.eval_forked 100 false "/bin/sleep 5\n" }

/-- The slots of `t2` in state FG are slots of `t` left as they were: what
a run of `sigchld_handler` does to the foreground jobs. -/
def FgKept (t t2 : JobTable) : Prop :=
  ∀ (k : Nat) (j : job_t), t2.slots[k]? = some (some j) → j.state = JobState.FG →
    t.slots[k]? = some (some j)

/-- The outcome the uninterrupted `do_bgfg` leaves to `eval`: back to the read
loop, or into `waitfg`. -/
def afterDoBgfg (r : Shell × Option Int) : Config :=
  match r.2 with
  | none => { sh := r.1, pc := Pc.read_loop }
  | some pid => { sh := r.1, pc := Pc.waitfg pid }

/-- The shell spinning in `waitfg(0)`: `fg %1` resolved the background job 100,
the job was reaped before line 230, and FG was written into its freed slot. -/
def demoStale : Config :=
  { sh := { jobs := { slots := [some { pid := 0, jid := 0, state := JobState.FG,
                                       cmdline := "" }, none],
                      nextjid := 1 },
            out := ["[1] (100) /bin/sleep 5 &\n"], sent := [(0, 18)], blocked := false,
            errno := 10 },
    pc := Pc.waitfg 0 }

/-- The steps that lead to `demoStale`. -/
def demoStaleRun : List Action :=
  [Action.command ["/bin/sleep", "5"] true "/bin/sleep 5 &\n", Action.fork_returns 100,
   Action.advance, Action.advance, Action.advance,
   Action.command ["fg", "%1"] false "fg %1\n",
   Action.sigchld [(100, Status.exited 0)] (WaitFinal.fail 10),
   Action.advance, Action.advance, Action.advance, Action.advance, Action.advance]

/-! ## Facts about the job table -/

theorem findJob_lt {p : job_t → Bool} {l : List (Option job_t)} {i : Nat}
    (h : findJob p l = some i) : i < l.length := by
  induction l generalizing i with
  | nil => simp [findJob] at h
  | cons a rest ih =>
    cases a with
    | none =>
      simp only [findJob, Option.map_eq_some'] at h
      obtain ⟨k, hk, rfl⟩ := h
      simpa using ih hk
    | some j =>
      simp only [findJob] at h
      split at h
      · simp at h; subst h; simp
      · simp only [Option.map_eq_some'] at h
        obtain ⟨k, hk, rfl⟩ := h
        simpa using ih hk

theorem findJob_get {p : job_t → Bool} {l : List (Option job_t)} {i : Nat}
    (h : findJob p l = some i) : ∃ j, l[i]? = some (some j) ∧ p j = true := by
  induction l generalizing i with
  | nil => simp [findJob] at h
  | cons a rest ih =>
    cases a with
    | none =>
      simp only [findJob, Option.map_eq_some'] at h
      obtain ⟨k, hk, rfl⟩ := h
      simpa using ih hk
    | some j =>
      simp only [findJob] at h
      split at h
      · simp at h; subst h; exact ⟨j, by simp, by assumption⟩
      · simp only [Option.map_eq_some'] at h
        obtain ⟨k, hk, rfl⟩ := h
        simpa using ih hk

theorem findJob_none {p : job_t → Bool} {l : List (Option job_t)}
    (h : ∀ j, some j ∈ l → p j = false) : findJob p l = none := by
  induction l with
  | nil => rfl
  | cons a rest ih =>
    have hr : findJob p rest = none := ih (fun j hj => h j (List.mem_cons_of_mem _ hj))
    cases a with
    | none => simp [findJob, hr]
    | some j =>
      have hj : p j = false := h j (List.mem_cons_self _ _)
      simp [findJob, hr, hj]

theorem findJob_eq_none_mem {p : job_t → Bool} {l : List (Option job_t)}
    (h : findJob p l = none) : ∀ j, some j ∈ l → p j = false := by
  induction l with
  | nil => intro j hj; simp at hj
  | cons a rest ih =>
    cases a with
    | none =>
      simp only [findJob, Option.map_eq_none'] at h
      intro j hj
      simp only [List.mem_cons] at hj
      rcases hj with hj | hj
      · cases hj
      · exact ih h j hj
    | some j0 =>
      simp only [findJob] at h
      split at h
      · cases h
      · rename_i hp
        simp only [Option.map_eq_none'] at h
        intro j hj
        simp only [List.mem_cons] at hj
        rcases hj with hj | hj
        · cases hj; simpa using hp
        · exact ih h j hj

theorem firstJob_eq_head (p : job_t → Bool) (l : List (Option job_t)) :
    firstJob p l = ((l.filterMap id).filter p).head? := by
  induction l with
  | nil => rfl
  | cons a rest ih =>
    cases a with
    | none =>
      simp only [firstJob, findJob, List.filterMap_cons_none, id] at *
      rw [← ih]
      cases findJob p rest <;> simp
    | some j =>
      simp only [firstJob, findJob] at *
      by_cases hp : p j = true
      · simp [hp]
      · simp only [hp, Bool.false_eq_true, if_false]
        have : (List.filterMap id (some j :: rest)) = j :: List.filterMap id rest := by simp
        rw [this, List.filter_cons_of_neg hp, ← ih]
        cases findJob p rest <;> simp

theorem fgpid_eq (t : JobTable) :
    fgpid t = match fgJobs t with
      | [] => 0
      | j :: _ => j.pid := by
  have h := firstJob_eq_head (fun j => j.state == JobState.FG) t.slots
  unfold fgpid fgJobs jobAt
  unfold firstJob at h
  cases hf : findJob (fun j => j.state == JobState.FG) t.slots with
  | none =>
    rw [hf] at h
    simp only [Option.none_bind] at h
    cases hl : List.filter (fun j => j.state == JobState.FG) (List.filterMap id t.slots) with
    | nil => rfl
    | cons a b => rw [hl] at h; simp at h
  | some i =>
    rw [hf] at h
    simp only [Option.some_bind] at h
    obtain ⟨j, hj, _⟩ := findJob_get hf
    simp only [hj] at h ⊢
    simp only [Option.join] at h ⊢
    cases hl : List.filter (fun j => j.state == JobState.FG) (List.filterMap id t.slots) with
    | nil => rw [hl] at h; simp at h
    | cons a b =>
      rw [hl] at h
      simp at h
      simp [h]

/-! ## Facts about atoi -/

theorem digitChar_spec (d : Nat) (h : d < 10) :
    (Nat.digitChar d).isDigit = true ∧ (Nat.digitChar d).toNat - 48 = d := by
  interval_cases d <;> exact ⟨by decide, by decide⟩

theorem digitsValue_toDigitsCore (fuel : Nat) :
    ∀ (n : Nat) (ds : List Char), n < fuel →
      digitsValue (Nat.toDigitsCore 10 fuel n ds) 0 = digitsValue ds n := by
  induction fuel with
  | zero => intro n ds h; omega
  | succ f ih =>
    intro n ds h
    obtain ⟨hd, hv⟩ := digitChar_spec (n % 10) (Nat.mod_lt _ (by decide))
    simp only [Nat.toDigitsCore]
    split
    · rename_i h0
      simp only [digitsValue, hd, if_true, hv]
      congr 1
      omega
    · rename_i h0
      rw [ih (n / 10) _ (by omega)]
      simp only [digitsValue, hd, if_true, hv]
      congr 1
      omega

theorem toDigitsCore_head (fuel : Nat) :
    ∀ (n : Nat) (ds : List Char), n < fuel →
      ∃ c cs, Nat.toDigitsCore 10 fuel n ds = c :: cs ∧ c.isDigit = true := by
  induction fuel with
  | zero => intro n ds h; omega
  | succ f ih =>
    intro n ds h
    simp only [Nat.toDigitsCore]
    split
    · exact ⟨_, _, rfl, (digitChar_spec (n % 10) (Nat.mod_lt _ (by decide))).1⟩
    · exact ih (n / 10) _ (by omega)

theorem isDigit_not_special (c : Char) (h : c.isDigit = true) :
    isspace c = false ∧ c ≠ '-' ∧ c ≠ '+' ∧ c ≠ '%' := by
  refine ⟨?_, ?_, ?_, ?_⟩
  · cases hs : isspace c with
    | false => rfl
    | true =>
      simp only [isspace, Bool.or_eq_true, beq_iff_eq] at hs
      rcases hs with ((((hs | hs) | hs) | hs) | hs) | hs <;> subst hs <;> revert h <;> decide
  · rintro rfl; revert h; decide
  · rintro rfl; revert h; decide
  · rintro rfl; revert h; decide

theorem toInt32_small (n : Nat) (h : (n : Int) < 2 ^ 31) :
    toInt32 (min LONG_MAX (n : Int)) = n := by
  have h1 : min LONG_MAX (n : Int) = n := by
    apply min_eq_right
    unfold LONG_MAX
    norm_num at h ⊢
    omega
  rw [h1]
  unfold toInt32
  norm_num at h ⊢
  omega

theorem atoi_digit_head (c : Char) (cs : List Char) (h : c.isDigit = true) :
    atoi (c :: cs) = toInt32 (min LONG_MAX (digitsValue (c :: cs) 0 : Int)) := by
  obtain ⟨hs, hm, hp, _⟩ := isDigit_not_special c h
  simp [atoi, strtol, List.dropWhile, hs, hm, hp]

/-- The function `atoi` reads the decimal text of a number that fits an `int`
back as that number. -/
theorem atoi_toDigits (n : Nat) (h : (n : Int) < 2 ^ 31) :
    atoi (Nat.toDigits 10 n) = n := by
  obtain ⟨c, cs, hcs, hc⟩ := toDigitsCore_head (n + 1) n [] (Nat.lt_succ_self n)
  have hv := digitsValue_toDigitsCore (n + 1) n [] (Nat.lt_succ_self n)
  unfold Nat.toDigits
  rw [hcs] at hv ⊢
  rw [atoi_digit_head c cs hc, hv]
  simpa [digitsValue] using toInt32_small n h

theorem toDigits_head (n : Nat) :
    ∃ c cs, Nat.toDigits 10 n = c :: cs ∧ c.isDigit = true :=
  toDigitsCore_head (n + 1) n [] (Nat.lt_succ_self n)

theorem toString_nat_data (n : Nat) : (toString n).data = Nat.toDigits 10 n := rfl

theorem toString_int_data (n : Nat) : (toString (n : Int)).data = Nat.toDigits 10 n := rfl

/-! ## do_bgfg -/

theorem mem_jobs_iff (l : List (Option job_t)) (j : job_t) :
    j ∈ l.filterMap id ↔ some j ∈ l := by
  simp [List.mem_filterMap]

theorem getjobpid_of_unique (t : JobTable) (J : job_t) (hu : PidsUnique t)
    (hJ : some J ∈ t.slots) :
    ∃ i, getjobpid t J.pid = some i ∧ t.slots[i]? = some (some J) := by
  cases hf : getjobpid t J.pid with
  | none =>
    have := findJob_eq_none_mem hf J hJ
    simp at this
  | some i =>
    obtain ⟨j0, hj0, hp⟩ := findJob_get hf
    have hm0 : j0 ∈ t.slots.filterMap id := (mem_jobs_iff _ _).2 (List.getElem?_mem hj0)
    have hm : J ∈ t.slots.filterMap id := (mem_jobs_iff _ _).2 hJ
    have : j0 = J := List.inj_on_of_nodup_map hu hm0 hm (by simpa using hp)
    subst this
    exact ⟨i, rfl, hj0⟩

theorem pid2jid_of_unique (t : JobTable) (J : job_t) (hu : PidsUnique t)
    (hJ : some J ∈ t.slots) : pid2jid t J.pid = J.jid := by
  obtain ⟨i, hi, hs⟩ := getjobpid_of_unique t J hu hJ
  simp [pid2jid, hi, jobAt, hs]

/-- C4. With a job `J` (stopped, as in the claim, or in any other state) in a
table of distinct pids, `bg <pid of J>` sends SIGCONT to the process group
`-pid`, prints `[jid] (pid)` and a newline with the jid and pid of `J`, and the
table afterwards is the old one with the slot of `J` holding `J` in state BG:
every other slot, the jid counter, and the pid, jid and command line of `J` are
as before. Nothing else of the shell state changes and no `waitfg` is
pending. -/
theorem do_bgfg_bg_pid_resumes (s : Shell) (J : job_t) (hJ : some J ∈ s.jobs.slots)
    (hu : PidsUnique s.jobs)
    (hlo : 0 < J.pid) (hhi : J.pid < 2 ^ 31) :
    ∃ i, s.jobs.slots[i]? = some (some J) ∧
      do_bgfg s ["bg", toString J.pid] =
        ({ s with
            sent := s.sent ++ [(-J.pid, SIGCONT)]
            out := s.out ++ ["[" ++ toString J.jid ++ "] (" ++ toString J.pid ++ ")\n"]
            jobs := { s.jobs with
                      slots := s.jobs.slots.set i (some { J with state := JobState.BG }) } },
         none) ∧
      (∀ k, k ≠ i → (do_bgfg s ["bg", toString J.pid]).1.jobs.slots[k]? = s.jobs.slots[k]?) ∧
      (do_bgfg s ["bg", toString J.pid]).1.jobs.slots[i]? =
        some (some { pid := J.pid, jid := J.jid, state := JobState.BG,
                     cmdline := J.cmdline }) := by
  obtain ⟨i, hi, hs⟩ := getjobpid_of_unique s.jobs J hu hJ
  have hjid := pid2jid_of_unique s.jobs J hu hJ
  obtain ⟨n, hn⟩ : ∃ n : Nat, J.pid = n := ⟨J.pid.toNat, by omega⟩
  obtain ⟨c, cs, hcs, hc⟩ := toDigits_head n
  have hat : atoi (c :: cs) = J.pid := by
    rw [← hcs, hn]; exact atoi_toDigits n (by rw [← hn]; exact hhi)
  have hdata : (toString J.pid).data = c :: cs := by
    rw [hn, toString_int_data, hcs]
  have hlt : i < s.jobs.slots.length := by
    by_contra hge
    rw [List.getElem?_eq_none (by omega)] at hs
    cases hs
  have heq : do_bgfg s ["bg", toString J.pid] =
        ({ s with
            sent := s.sent ++ [(-J.pid, SIGCONT)]
            out := s.out ++ ["[" ++ toString J.jid ++ "] (" ++ toString J.pid ++ ")\n"]
            jobs := { s.jobs with
                      slots := s.jobs.slots.set i (some { J with state := JobState.BG }) } },
         none) := by
    have hne : ¬ ("bg" = "fg") := by decide
    simp only [do_bgfg, hdata, hc, if_true, hat, hi, resume, jobAt, hs, Option.join, kill,
      printf, hjid, setState, hne, if_false, Option.some_bind, id]
  refine ⟨i, hs, heq, ?_, ?_⟩
  · intro k hk
    rw [heq]
    simp [List.getElem?_set_ne (Ne.symm hk)]
  · rw [heq]
    simp [List.getElem?_set_self hlt]

/-- C5, as amended. For a number `k` below 2^31 (it fits an `int`) that is the
jid of no job in the table, `fg %k` and `bg %k` (any `argv[0]`) print the line `%k: No such job`
and do nothing else: no signal is sent, no `waitfg` is pending, the job table
and the rest of the shell state are unchanged. -/
theorem do_bgfg_unknown_jid (s : Shell) (cmd : String) (k : Nat) (hk : (k : Int) < 2 ^ 31)
    (hno : ∀ j, some j ∈ s.jobs.slots → j.jid ≠ k) :
    do_bgfg s [cmd, "%" ++ toString k] =
      ({ s with out := s.out ++ ["%" ++ toString k ++ ": No such job\n"] }, none) := by
  have hdata : ("%" ++ toString k).data = '%' :: Nat.toDigits 10 k := by
    rw [String.data_append, toString_nat_data]; rfl
  have hnone : getjobjid s.jobs (k : Int) = none :=
    findJob_none (fun j hj => by simpa using hno j hj)
  have hd : ¬ (Char.isDigit '%' = true) := by decide
  simp only [do_bgfg, hdata, hd, if_false, if_true, atoi_toDigits k hk, hnone, printf,
    Bool.false_eq_true]

/-- C6, as amended. When the first character of the target is neither a
decimal digit nor `%` (the empty target included), `bg` / `fg` print
`<cmd>: argument must be a PID or %jobid` and do nothing else: no signal, no
`waitfg`, the job table and the rest of the shell state unchanged. -/
theorem do_bgfg_rejects_by_first_char (s : Shell) (cmd arg : String)
    (h : ∀ c cs, arg.data = c :: cs → c.isDigit = false ∧ c ≠ '%') :
    do_bgfg s [cmd, arg] =
      ({ s with out := s.out ++ [cmd ++ ": argument must be a PID or %jobid\n"] }, none) := by
  cases hd : arg.data with
  | nil => simp only [do_bgfg, hd, printf]
  | cons c cs =>
    obtain ⟨h1, h2⟩ := h c cs hd
    simp only [do_bgfg, hd, h1, h2, if_false, printf, Bool.false_eq_true]

/-- C7. Both `sigint_handler` and `sigtstp_handler` leave everything but the
list of sent signals as it is, the job table included; when `fgpid` is 0 they
send nothing; when the table (all pids non-zero) has a foreground job they
send exactly the received signal to `-p`, `p` the pid `fgpid` returns, which is
the pid of a job in state FG; and they send something only if the table has a
foreground job. -/
theorem sigint_sigtstp_forward_to_fg (s : Shell) (sig : Int)
    (hpid : ∀ j, some j ∈ s.jobs.slots → j.pid ≠ 0) :
    sigint_handler s sig = sigtstp_handler s sig ∧
    (sigint_handler s sig).jobs = s.jobs ∧
    (sigint_handler s sig).out = s.out ∧
    (fgpid s.jobs = 0 → sigint_handler s sig = s) ∧
    ((∃ j, some j ∈ s.jobs.slots ∧ j.state = JobState.FG) →
      (∃ j, some j ∈ s.jobs.slots ∧ j.state = JobState.FG ∧ fgpid s.jobs = j.pid) ∧
      sigint_handler s sig = { s with sent := s.sent ++ [(-(fgpid s.jobs), sig)] }) ∧
    ((¬ ∃ j, some j ∈ s.jobs.slots ∧ j.state = JobState.FG) →
      fgpid s.jobs = 0 ∧ sigint_handler s sig = s) := by
  have hfg := fgpid_eq s.jobs
  refine ⟨rfl, ?_, ?_, ?_, ?_, ?_⟩
  · by_cases h0 : fgpid s.jobs = 0 <;> simp [sigint_handler, kill, h0]
  · by_cases h0 : fgpid s.jobs = 0 <;> simp [sigint_handler, kill, h0]
  · intro h0; simp [sigint_handler, h0]
  · rintro ⟨j, hj, hjs⟩
    have hmem : j ∈ fgJobs s.jobs := by
      simp only [fgJobs, List.mem_filter, mem_jobs_iff]
      exact ⟨hj, by simp [hjs]⟩
    cases hl : fgJobs s.jobs with
    | nil => rw [hl] at hmem; cases hmem
    | cons a rest =>
      rw [hl] at hfg
      simp only at hfg
      have ha : a ∈ fgJobs s.jobs := by rw [hl]; exact List.mem_cons_self _ _
      simp only [fgJobs, List.mem_filter, mem_jobs_iff] at ha
      have hne : fgpid s.jobs ≠ 0 := by rw [hfg]; exact hpid a ha.1
      refine ⟨⟨a, ha.1, by simpa using ha.2, hfg⟩, ?_⟩
      simp [sigint_handler, hne, kill]
  · intro hno
    cases hl : fgJobs s.jobs with
    | nil =>
      rw [hl] at hfg
      simp only at hfg
      exact ⟨hfg, by simp [sigint_handler, hfg]⟩
    | cons a rest =>
      exfalso
      have ha : a ∈ fgJobs s.jobs := by rw [hl]; exact List.mem_cons_self _ _
      simp only [fgJobs, List.mem_filter, mem_jobs_iff] at ha
      exact hno ⟨a, ha.1, by simpa using ha.2⟩

theorem do_bgfg_bg_pid_resumes_witness :
    (some demoJob ∈ demoShell.jobs.slots ∧ demoJob.state = JobState.ST ∧
      PidsUnique demoShell.jobs ∧ 0 < demoJob.pid ∧ demoJob.pid < 2 ^ 31) ∧
    ∃ i, demoShell.jobs.slots[i]? = some (some demoJob) ∧
      do_bgfg demoShell ["bg", toString demoJob.pid] =
        ({ demoShell with
            sent := demoShell.sent ++ [(-demoJob.pid, SIGCONT)]
            out := demoShell.out ++
              ["[" ++ toString demoJob.jid ++ "] (" ++ toString demoJob.pid ++ ")\n"]
            jobs := { demoShell.jobs with
                      slots := demoShell.jobs.slots.set i
                        (some { demoJob with state := JobState.BG }) } },
         none) ∧
      (∀ k, k ≠ i → (do_bgfg demoShell ["bg", toString demoJob.pid]).1.jobs.slots[k]? =
        demoShell.jobs.slots[k]?) ∧
      (do_bgfg demoShell ["bg", toString demoJob.pid]).1.jobs.slots[i]? =
        some (some { pid := demoJob.pid, jid := demoJob.jid, state := JobState.BG,
                     cmdline := demoJob.cmdline }) :=
  ⟨⟨by decide, by decide, by decide, by decide, by decide⟩,
   do_bgfg_bg_pid_resumes demoShell demoJob (by decide) (by decide) (by decide) (by decide)⟩

theorem do_bgfg_unknown_jid_witness :
    ((7 : Nat) : Int) < 2 ^ 31 ∧ (∀ j, some j ∈ demoShell.jobs.slots → j.jid ≠ (7 : Nat)) ∧
    do_bgfg demoShell ["fg", "%" ++ toString 7] =
      ({ demoShell with out := demoShell.out ++ ["%" ++ toString 7 ++ ": No such job\n"] },
       none) :=
  ⟨by decide,
   (by intro j hj; simp [demoShell, demoTable, demoJob] at hj
       rcases hj with rfl | rfl <;> decide),
   do_bgfg_unknown_jid demoShell "fg" 7 (by decide)
     (by intro j hj; simp [demoShell, demoTable, demoJob] at hj
         rcases hj with rfl | rfl <;> decide)⟩

/-- C5, counterexample. No job of `demoTable` has jid 4294967297, yet
`fg %4294967297` prints nothing: `atoi` narrows the number to 1, the jid of the
job with pid 12, which is continued, set to FG and waited for. -/
theorem do_bgfg_wrapped_jid_counterexample :
    (∀ x ∈ demoShell.jobs.slots.filterMap id, x.jid ≠ 4294967297) ∧
    "%" ++ toString (4294967297 : Nat) = "%4294967297" ∧
    atoi "4294967297".data = 1 ∧
    (do_bgfg demoShell ["fg", "%4294967297"]).1.out = [] ∧
    (do_bgfg demoShell ["fg", "%4294967297"]).1.sent = [(-12, SIGCONT)] ∧
    (do_bgfg demoShell ["fg", "%4294967297"]).1.jobs ≠ demoShell.jobs ∧
    (do_bgfg demoShell ["fg", "%4294967297"]).2 = some 12 := by
  decide

theorem do_bgfg_rejects_by_first_char_witness :
    (∀ c cs, "abc".data = c :: cs → c.isDigit = false ∧ c ≠ '%') ∧
    do_bgfg demoShell ["bg", "abc"] =
      ({ demoShell with
          out := demoShell.out ++ ["bg" ++ ": argument must be a PID or %jobid\n"] }, none) :=
  ⟨by intro c cs h; cases h; decide,
   do_bgfg_rejects_by_first_char demoShell "bg" "abc" (by intro c cs h; cases h; decide)⟩

/-- C6, counterexample. The targets `12abc` and `%` are malformed in the
claimed sense, yet `bg 12abc` resumes the job with pid 12 (a signal is sent, the
table changes, the message is not printed) and `fg %` prints `%: No such job`. -/
theorem do_bgfg_malformed_counterexample :
    spec_wellFormedTarget "12abc" = false ∧ spec_wellFormedTarget "%" = false ∧
    (do_bgfg demoShell ["bg", "12abc"]).1.sent = [(-12, SIGCONT)] ∧
    (do_bgfg demoShell ["bg", "12abc"]).1.out = ["[1] (12)\n"] ∧
    (do_bgfg demoShell ["bg", "12abc"]).1.jobs ≠ demoShell.jobs ∧
    (do_bgfg demoShell ["fg", "%"]).1.out = ["%: No such job\n"] := by
  decide

theorem sigint_sigtstp_forward_to_fg_witness :
    (∀ j, some j ∈ demoFgShell.jobs.slots → j.pid ≠ 0) ∧
    (sigint_handler demoFgShell 2 = sigtstp_handler demoFgShell 2 ∧
    (sigint_handler demoFgShell 2).jobs = demoFgShell.jobs ∧
    (sigint_handler demoFgShell 2).out = demoFgShell.out ∧
    (fgpid demoFgShell.jobs = 0 → sigint_handler demoFgShell 2 = demoFgShell) ∧
    ((∃ j, some j ∈ demoFgShell.jobs.slots ∧ j.state = JobState.FG) →
      (∃ j, some j ∈ demoFgShell.jobs.slots ∧ j.state = JobState.FG ∧
        fgpid demoFgShell.jobs = j.pid) ∧
      sigint_handler demoFgShell 2 =
        { demoFgShell with sent := demoFgShell.sent ++ [(-(fgpid demoFgShell.jobs), 2)] }) ∧
    ((¬ ∃ j, some j ∈ demoFgShell.jobs.slots ∧ j.state = JobState.FG) →
      fgpid demoFgShell.jobs = 0 ∧ sigint_handler demoFgShell 2 = demoFgShell)) :=
  ⟨(by intro j hj; simp [demoFgShell, demoJob] at hj; rcases hj with rfl | rfl <;> decide),
   sigint_sigtstp_forward_to_fg demoFgShell 2
     (by intro j hj; simp [demoFgShell, demoJob] at hj; rcases hj with rfl | rfl <;> decide)⟩

/-! ## deletejob -/

theorem findJob_set_none (p : job_t → Bool) (l : List (Option job_t)) :
    ∀ k, (∀ j, l[k]? = some (some j) → p j = false) →
      findJob p (l.set k none) = findJob p l := by
  induction l with
  | nil => intro k _; rfl
  | cons a rest ih =>
    intro k hk
    cases k with
    | zero =>
      cases a with
      | none => rfl
      | some j =>
        have : p j = false := hk j (by simp)
        simp [findJob, this]
    | succ k =>
      have hr : findJob p (rest.set k none) = findJob p rest :=
        ih k (fun j hj => hk j (by simpa using hj))
      cases a with
      | none => simp [findJob, hr]
      | some j => simp [findJob, hr]

theorem findJob_deletejob (p : job_t → Bool) (t : JobTable) (q : Int)
    (h : ∀ j, j.pid = q → p j = false) :
    findJob p (deletejob t q).slots = findJob p t.slots := by
  unfold deletejob
  cases hf : getjobpid t q with
  | none => rfl
  | some i =>
    obtain ⟨j0, hj0, hp0⟩ := findJob_get hf
    simp only
    apply findJob_set_none
    intro j hj
    rw [hj0] at hj
    cases hj
    exact h j0 (by simpa using hp0)

theorem slot_deletejob (t : JobTable) (q : Int) (i : Nat) (J : job_t)
    (hJ : t.slots[i]? = some (some J)) (hne : J.pid ≠ q) :
    (deletejob t q).slots[i]? = some (some J) := by
  unfold deletejob
  cases hf : getjobpid t q with
  | none => exact hJ
  | some k =>
    obtain ⟨j0, hj0, hp0⟩ := findJob_get hf
    have hki : k ≠ i := by
      rintro rfl
      rw [hJ] at hj0
      cases hj0
      exact hne (by simpa using hp0)
    simp only
    rw [List.getElem?_set_ne hki]
    exact hJ

theorem nextjid_deletejob (t : JobTable) (q : Int) (i : Nat) (J : job_t)
    (hJ : t.slots[i]? = some (some J)) (hne : J.pid ≠ q) :
    (deletejob t q).nextjid = t.nextjid := by
  have hkeep := slot_deletejob t q i J hJ hne
  unfold deletejob at hkeep ⊢
  cases hf : getjobpid t q with
  | none => rfl
  | some k =>
    rw [hf] at hkeep
    simp only at hkeep ⊢
    have hmem : some J ∈ t.slots.set k none := List.getElem?_mem hkeep
    have hall : ¬ ((t.slots.set k none).all Option.isNone = true) := by
      intro hall
      have := List.all_eq_true.1 hall (some J) hmem
      simp at this
    simp [hall]

theorem getjobpid_deletejob (t : JobTable) (q p : Int) (hne : p ≠ q) :
    getjobpid (deletejob t q) p = getjobpid t p :=
  findJob_deletejob _ t q (fun j hj => by simp [hj, Ne.symm hne])

theorem pid2jid_deletejob (t : JobTable) (q p : Int) (hne : p ≠ q) :
    pid2jid (deletejob t q) p = pid2jid t p := by
  unfold pid2jid
  rw [getjobpid_deletejob t q p hne]
  cases hf : getjobpid t p with
  | none => rfl
  | some i =>
    obtain ⟨j0, hj0, hp0⟩ := findJob_get hf
    have h1 := slot_deletejob t q i j0 hj0 (by
      have : j0.pid = p := by simpa using hp0
      rw [this]; exact hne)
    simp [jobAt, hj0, h1]

theorem map_keepOutside_self (pids : List Int) (l : List (Option job_t))
    (h : ∀ j, some j ∈ l → j.pid ∉ pids) : l.map (keepOutside pids) = l := by
  induction l with
  | nil => rfl
  | cons a rest ih =>
    have hr := ih (fun j hj => h j (List.mem_cons_of_mem _ hj))
    cases a with
    | none => simp [keepOutside, hr]
    | some j =>
      have := h j (List.mem_cons_self _ _)
      simp [keepOutside, hr, this]

theorem set_findJob_pid (q : Int) (l : List (Option job_t))
    (hu : ((l.filterMap id).map (fun j => j.pid)).Nodup) :
    (match findJob (fun j => j.pid == q) l with
      | none => l
      | some i => l.set i none) = l.map (keepOutside [q]) := by
  induction l with
  | nil => rfl
  | cons a rest ih =>
    cases a with
    | none =>
      have hr := ih (by simpa using hu)
      simp only [findJob, List.map_cons, keepOutside]
      cases hf : findJob (fun j => j.pid == q) rest with
      | none => rw [hf] at hr; simp only [Option.map_none']; rw [← hr]
      | some i => rw [hf] at hr; simp only [Option.map_some', List.set_cons_succ]; rw [← hr]
    | some j =>
      have hu2 : j.pid ∉ (rest.filterMap id).map (fun j => j.pid) ∧
          ((rest.filterMap id).map (fun j => j.pid)).Nodup := by
        simpa [List.nodup_cons] using hu
      have hr := ih hu2.2
      by_cases hq : j.pid = q
      · have hself : rest.map (keepOutside [q]) = rest := by
          apply map_keepOutside_self
          intro j2 hj2 hmem
          simp only [List.mem_singleton] at hmem
          apply hu2.1
          rw [List.mem_map]
          exact ⟨j2, (mem_jobs_iff _ _).2 hj2, by rw [hmem, hq]⟩
        simp [findJob, hq, keepOutside, hself]
      · simp only [findJob, List.map_cons, keepOutside, List.mem_singleton, hq, if_false,
          beq_iff_eq]
        cases hf : findJob (fun j => j.pid == q) rest with
        | none => rw [hf] at hr; simp only [Option.map_none']; rw [← hr]
        | some i => rw [hf] at hr; simp only [Option.map_some', List.set_cons_succ]; rw [← hr]

theorem deletejob_slots_unique (t : JobTable) (q : Int) (hu : PidsUnique t) :
    (deletejob t q).slots = t.slots.map (keepOutside [q]) := by
  rw [← set_findJob_pid q t.slots hu]
  unfold deletejob getjobpid
  cases findJob (fun j => j.pid == q) t.slots <;> rfl

theorem jobs_map_keepOutside (pids : List Int) (l : List (Option job_t)) :
    (l.map (keepOutside pids)).filterMap id =
      (l.filterMap id).filter (fun j => decide (j.pid ∉ pids)) := by
  induction l with
  | nil => rfl
  | cons a rest ih =>
    cases a with
    | none => simpa [keepOutside] using ih
    | some j =>
      by_cases hq : j.pid ∈ pids
      · simp [keepOutside, hq, ih]
      · simp [keepOutside, hq, ih]

theorem mem_map_keepOutside (pids : List Int) (l : List (Option job_t)) (j : job_t) :
    some j ∈ l.map (keepOutside pids) ↔ some j ∈ l ∧ j.pid ∉ pids := by
  rw [← mem_jobs_iff, jobs_map_keepOutside, List.mem_filter, mem_jobs_iff]
  simp

theorem keepOutside_comp (q : Int) (pids : List Int) (x : Option job_t) :
    keepOutside pids (keepOutside [q] x) = keepOutside (q :: pids) x := by
  cases x with
  | none => rfl
  | some j =>
    by_cases hq : j.pid = q
    · simp [keepOutside, hq]
    · by_cases hp : j.pid ∈ pids <;> simp [keepOutside, hq, hp]

theorem pidsUnique_deletejob (t : JobTable) (q : Int) (hu : PidsUnique t) :
    PidsUnique (deletejob t q) := by
  unfold PidsUnique at hu ⊢
  rw [deletejob_slots_unique t q hu, jobs_map_keepOutside]
  exact hu.sublist ((List.filter_sublist _).map _)

/-! ## sigchld_handler -/

theorem reportOf_deletejob (t : JobTable) (q : Int) (e : Int × Status) (hne : e.1 ≠ q) :
    reportOf (deletejob t q) e = reportOf t e := by
  unfold reportOf
  cases e.2 <;> simp [pid2jid_deletejob t q e.1 hne]

/-- The loop of `sigchld_handler` on terminations only, in a table of distinct
pids: it ends by exhausting the events, frees exactly the slots of the reaped
pids, and prints one line per child killed by a signal. -/
theorem reap_terminated (evs : List (Int × Status)) :
    ∀ s : Shell, PidsUnique s.jobs → (∀ e ∈ evs, 0 < e.1) →
      (∀ e ∈ evs, e.2.isStop = false) → (evs.map Prod.fst).Nodup →
      (reap s evs).2 = LoopExit.done ∧
      (reap s evs).1.jobs.slots = s.jobs.slots.map (keepOutside (evs.map Prod.fst)) ∧
      (reap s evs).1.out = s.out ++ evs.filterMap (reportOf s.jobs) ∧
      (reap s evs).1.sent = s.sent ∧ (reap s evs).1.blocked = s.blocked ∧
      (reap s evs).1.errno = s.errno := by
  induction evs with
  | nil =>
    intro s hu _ _ _
    refine ⟨rfl, ?_, by simp [reap], rfl, rfl, rfl⟩
    simp only [reap, List.map_nil]
    exact (map_keepOutside_self [] _ (fun _ _ => List.not_mem_nil _)).symm
  | cons e rest ih =>
    intro s hu hpos hterm hnd
    obtain ⟨wpid, status⟩ := e
    have hw : 0 < wpid := hpos (wpid, status) (List.mem_cons_self _ _)
    have hpos2 : ∀ e ∈ rest, 0 < e.1 := fun e he => hpos e (List.mem_cons_of_mem _ he)
    have hterm2 : ∀ e ∈ rest, e.2.isStop = false :=
      fun e he => hterm e (List.mem_cons_of_mem _ he)
    simp only [List.map_cons, List.nodup_cons] at hnd
    have hrep : rest.filterMap (reportOf (deletejob s.jobs wpid)) =
        rest.filterMap (reportOf s.jobs) := by
      apply List.filterMap_congr
      intro x hx
      apply reportOf_deletejob
      rintro rfl
      exact hnd.1 (List.mem_map_of_mem _ hx)
    have hslots : ∀ t : JobTable, t = deletejob s.jobs wpid →
        t.slots.map (keepOutside (rest.map Prod.fst)) =
          s.jobs.slots.map (keepOutside (wpid :: rest.map Prod.fst)) := by
      intro t ht
      rw [ht, deletejob_slots_unique s.jobs wpid hu, List.map_map]
      apply List.map_congr_left
      intro x _
      exact keepOutside_comp wpid _ x
    cases status with
    | exited code =>
      obtain ⟨h1, h2, h3, h4, h5, h6⟩ :=
        ih { s with jobs := deletejob s.jobs wpid } (pidsUnique_deletejob _ _ hu) hpos2 hterm2
          hnd.2
      simp only [reap, hw, if_true, List.map_cons]
      refine ⟨h1, ?_, ?_, h4, h5, h6⟩
      · rw [h2]; exact hslots _ rfl
      · rw [h3]; simp [reportOf, hrep]
    | signaled sig =>
      have hstep : reap s ((wpid, Status.signaled sig) :: rest) =
          reap { jobs := deletejob s.jobs wpid,
                 out := s.out ++ [terminatedLine (pid2jid s.jobs wpid) wpid sig],
                 sent := s.sent, blocked := s.blocked, errno := s.errno } rest := by
        simp only [reap, hw, if_true, printf]
      obtain ⟨h1, h2, h3, h4, h5, h6⟩ :=
        ih { jobs := deletejob s.jobs wpid,
             out := s.out ++ [terminatedLine (pid2jid s.jobs wpid) wpid sig],
             sent := s.sent, blocked := s.blocked, errno := s.errno }
          (pidsUnique_deletejob _ _ hu) hpos2 hterm2 hnd.2
      rw [hstep]
      refine ⟨h1, ?_, ?_, h4, h5, h6⟩
      · rw [h2]; exact hslots _ rfl
      · rw [h3]; simp [reportOf, hrep]
    | stopped sig =>
      have := hterm (wpid, Status.stopped sig) (List.mem_cons_self _ _)
      simp [Status.isStop] at this

theorem sigchld_handler_of_done (s : Shell) (evs : List (Int × Status)) (fin : WaitFinal)
    (h : (reap s evs).2 = LoopExit.done) :
    (sigchld_handler s evs fin).1.jobs = (reap s evs).1.jobs ∧
    (sigchld_handler s evs fin).1.out = (reap s evs).1.out := by
  unfold sigchld_handler
  cases hr : reap s evs with
  | mk s1 ex =>
    rw [hr] at h
    simp only at h
    subst h
    cases fin <;> simp only <;> split <;> try split
    all_goals exact ⟨rfl, rfl⟩

/-- C2. In a table of distinct pids and distinct jids, one invocation of
`sigchld_handler` on a sequence of terminations (positive pids, each child once,
no stop event) leaves no job with a reaped pid in the table: `getjobpid` finds
none of the reaped pids and `getjobjid` finds none of their old jids; every job
whose pid was not reaped sits unchanged in its slot; and what is printed is, in
order, one line `Job [jid] (pid) terminated by signal N` (with a newline) for
each reaped child that was killed by a signal and nothing for the others, `jid`
being the jid the child has in the table before the handler runs (`pid2jid` of
the old table, which is the jid of the job with that pid). -/
theorem sigchld_handler_reaps_terminated (s : Shell) (evs : List (Int × Status))
    (fin : WaitFinal) (hu : PidsUnique s.jobs) (hj : JidsUnique s.jobs)
    (hpos : ∀ e ∈ evs, 0 < e.1) (hterm : ∀ e ∈ evs, e.2.isStop = false)
    (hnd : (evs.map Prod.fst).Nodup) :
    (∀ j, some j ∈ (sigchld_handler s evs fin).1.jobs.slots → j.pid ∉ evs.map Prod.fst) ∧
    (∀ e ∈ evs, getjobpid (sigchld_handler s evs fin).1.jobs e.1 = none) ∧
    (∀ j, some j ∈ s.jobs.slots → j.pid ∈ evs.map Prod.fst →
      pid2jid s.jobs j.pid = j.jid ∧
      getjobjid (sigchld_handler s evs fin).1.jobs j.jid = none) ∧
    (∀ (i : Nat) (j : job_t), s.jobs.slots[i]? = some (some j) → j.pid ∉ evs.map Prod.fst →
      (sigchld_handler s evs fin).1.jobs.slots[i]? = some (some j)) ∧
    (sigchld_handler s evs fin).1.out =
      s.out ++ evs.filterMap (fun e =>
        match e.2 with
        | Status.signaled sig =>
          some ("Job [" ++ toString (pid2jid s.jobs e.1) ++ "] (" ++ toString e.1 ++
                ") terminated by signal " ++ toString sig ++ "\n")
        | _ => none) := by
  obtain ⟨hdone, hslots, hout, _, _, _⟩ := reap_terminated evs s hu hpos hterm hnd
  obtain ⟨hjobs, hout2⟩ := sigchld_handler_of_done s evs fin hdone
  rw [hjobs, hout2, hslots]
  have hmem : ∀ j, some j ∈ s.jobs.slots.map (keepOutside (evs.map Prod.fst)) →
      some j ∈ s.jobs.slots ∧ j.pid ∉ evs.map Prod.fst :=
    fun j hjm => (mem_map_keepOutside _ _ j).1 hjm
  refine ⟨fun j hjm => (hmem j hjm).2, ?_, ?_, ?_, hout⟩
  · intro e he
    apply findJob_none
    intro j hjm
    have h2 := (hmem j (by rw [← hslots]; exact hjm)).2
    have : j.pid ≠ e.1 := by
      rintro heq
      exact h2 (heq ▸ List.mem_map_of_mem _ he)
    simpa using this
  · intro j hjs hjp
    refine ⟨pid2jid_of_unique s.jobs j hu hjs, ?_⟩
    apply findJob_none
    intro j2 hjm
    obtain ⟨h1, h2⟩ := hmem j2 (by rw [← hslots]; exact hjm)
    have : j2.jid ≠ j.jid := by
      intro heq
      have : j2 = j := List.inj_on_of_nodup_map hj ((mem_jobs_iff _ _).2 h1)
        ((mem_jobs_iff _ _).2 hjs) heq
      subst this
      exact h2 hjp
    simpa using this
  · intro i j hi hjp
    rw [List.getElem?_map, hi]
    simp [keepOutside, hjp]

theorem sigchld_handler_reaps_terminated_witness :
    (PidsUnique demoShell.jobs ∧ JidsUnique demoShell.jobs ∧
      (∀ e ∈ demoTerminations, 0 < e.1) ∧
      (∀ e ∈ demoTerminations, e.2.isStop = false) ∧
      (demoTerminations.map Prod.fst).Nodup) ∧
    ((∀ j, some j ∈
        (sigchld_handler demoShell demoTerminations WaitFinal.zero).1.jobs.slots →
        j.pid ∉ demoTerminations.map Prod.fst) ∧
    (∀ e ∈ demoTerminations,
      getjobpid (sigchld_handler demoShell demoTerminations WaitFinal.zero).1.jobs e.1
        = none) ∧
    (∀ j, some j ∈ demoShell.jobs.slots → j.pid ∈ demoTerminations.map Prod.fst →
      pid2jid demoShell.jobs j.pid = j.jid ∧
      getjobjid (sigchld_handler demoShell demoTerminations WaitFinal.zero).1.jobs j.jid
        = none) ∧
    (∀ (i : Nat) (j : job_t), demoShell.jobs.slots[i]? = some (some j) →
      j.pid ∉ demoTerminations.map Prod.fst →
      (sigchld_handler demoShell demoTerminations WaitFinal.zero).1.jobs.slots[i]? =
        some (some j)) ∧
    (sigchld_handler demoShell demoTerminations WaitFinal.zero).1.out =
      demoShell.out ++ demoTerminations.filterMap (fun e =>
        match e.2 with
        | Status.signaled sig =>
          some ("Job [" ++ toString (pid2jid demoShell.jobs e.1) ++ "] (" ++ toString e.1 ++
                ") terminated by signal " ++ toString sig ++ "\n")
        | _ => none)) :=
  ⟨⟨by decide, by decide, by decide, by decide, by decide⟩,
   sigchld_handler_reaps_terminated demoShell demoTerminations WaitFinal.zero
     (by decide) (by decide) (by decide) (by decide) (by decide)⟩

theorem reap_append (pre : List (Int × Status)) (rest : List (Int × Status)) :
    ∀ s : Shell, (∀ e ∈ pre, 0 < e.1) → (∀ e ∈ pre, e.2.isStop = false) →
      (reap s pre).2 = LoopExit.done ∧ reap s (pre ++ rest) = reap (reap s pre).1 rest := by
  induction pre with
  | nil => intro s _ _; exact ⟨rfl, rfl⟩
  | cons e pre ih =>
    intro s hpos hterm
    obtain ⟨wpid, status⟩ := e
    have hw : 0 < wpid := hpos (wpid, status) (List.mem_cons_self _ _)
    have hpos2 : ∀ e ∈ pre, 0 < e.1 := fun e he => hpos e (List.mem_cons_of_mem _ he)
    have hterm2 : ∀ e ∈ pre, e.2.isStop = false :=
      fun e he => hterm e (List.mem_cons_of_mem _ he)
    cases status with
    | exited code =>
      simp only [reap, hw, if_true, List.cons_append]
      exact ih _ hpos2 hterm2
    | signaled sig =>
      simp only [reap, hw, if_true, List.cons_append]
      exact ih _ hpos2 hterm2
    | stopped sig =>
      have := hterm (wpid, Status.stopped sig) (List.mem_cons_self _ _)
      simp [Status.isStop] at this

theorem reap_keeps_job (pre : List (Int × Status)) (p : Int) (i : Nat) (J : job_t) :
    ∀ s : Shell, (∀ e ∈ pre, 0 < e.1) → (∀ e ∈ pre, e.2.isStop = false) →
      p ∉ pre.map Prod.fst → getjobpid s.jobs p = some i →
      s.jobs.slots[i]? = some (some J) →
      getjobpid (reap s pre).1.jobs p = some i ∧
      (reap s pre).1.jobs.slots[i]? = some (some J) ∧
      (reap s pre).1.jobs.nextjid = s.jobs.nextjid ∧
      (reap s pre).1.sent = s.sent ∧ (reap s pre).1.blocked = s.blocked ∧
      (reap s pre).1.errno = s.errno ∧
      ∃ L, (reap s pre).1.out = s.out ++ L ∧
        ∀ x ∈ L, ∃ e ∈ pre, ∃ jid sig, e.2 = Status.signaled sig ∧
          x = terminatedLine jid e.1 sig := by
  induction pre with
  | nil => intro s _ _ _ hi hJ; exact ⟨hi, hJ, rfl, rfl, rfl, rfl, [], by simp [reap], by simp⟩
  | cons e pre ih =>
    intro s hpos hterm hfresh hi hJ
    obtain ⟨wpid, status⟩ := e
    have hw : 0 < wpid := hpos (wpid, status) (List.mem_cons_self _ _)
    have hpos2 : ∀ e ∈ pre, 0 < e.1 := fun e he => hpos e (List.mem_cons_of_mem _ he)
    have hterm2 : ∀ e ∈ pre, e.2.isStop = false :=
      fun e he => hterm e (List.mem_cons_of_mem _ he)
    simp only [List.map_cons, List.mem_cons, not_or] at hfresh
    have hJp : J.pid = p := by
      obtain ⟨j0, hj0, hp0⟩ := findJob_get hi
      rw [hJ] at hj0
      cases hj0
      simpa using hp0
    have hi2 : getjobpid (deletejob s.jobs wpid) p = some i := by
      rw [getjobpid_deletejob _ _ _ hfresh.1]; exact hi
    have hJ2 : (deletejob s.jobs wpid).slots[i]? = some (some J) :=
      slot_deletejob _ _ _ _ hJ (by rw [hJp]; exact hfresh.1)
    have hn2 : (deletejob s.jobs wpid).nextjid = s.jobs.nextjid :=
      nextjid_deletejob _ _ _ _ hJ (by rw [hJp]; exact hfresh.1)
    cases status with
    | exited code =>
      obtain ⟨h1, h2, hn, h3, h4, h5, L, hL, hLs⟩ :=
        ih { jobs := deletejob s.jobs wpid, out := s.out, sent := s.sent,
             blocked := s.blocked, errno := s.errno } hpos2 hterm2 hfresh.2 hi2 hJ2
      have hstep : reap s ((wpid, Status.exited code) :: pre) =
          reap { jobs := deletejob s.jobs wpid, out := s.out, sent := s.sent,
                 blocked := s.blocked, errno := s.errno } pre := by
        simp only [reap, hw, if_true]
      rw [hstep]
      refine ⟨h1, h2, hn.trans hn2, h3, h4, h5, L, hL, ?_⟩
      intro x hx
      obtain ⟨e, he, jid, sig, h6, h7⟩ := hLs x hx
      exact ⟨e, List.mem_cons_of_mem _ he, jid, sig, h6, h7⟩
    | signaled sig =>
      obtain ⟨h1, h2, hn, h3, h4, h5, L, hL, hLs⟩ :=
        ih { jobs := deletejob s.jobs wpid,
             out := s.out ++ [terminatedLine (pid2jid s.jobs wpid) wpid sig],
             sent := s.sent, blocked := s.blocked, errno := s.errno }
          hpos2 hterm2 hfresh.2 hi2 hJ2
      have hstep : reap s ((wpid, Status.signaled sig) :: pre) =
          reap { jobs := deletejob s.jobs wpid,
                 out := s.out ++ [terminatedLine (pid2jid s.jobs wpid) wpid sig],
                 sent := s.sent, blocked := s.blocked, errno := s.errno } pre := by
        simp only [reap, hw, if_true, printf]
      rw [hstep]
      refine ⟨h1, h2, hn.trans hn2, h3, h4, h5,
        terminatedLine (pid2jid s.jobs wpid) wpid sig :: L, ?_, ?_⟩
      · rw [hL]; simp
      · intro x hx
        simp only [List.mem_cons] at hx
        rcases hx with rfl | hx
        · exact ⟨(wpid, Status.signaled sig), List.mem_cons_self _ _, _, sig, rfl, rfl⟩
        · obtain ⟨e, he, jid, sig0, h6, h7⟩ := hLs x hx
          exact ⟨e, List.mem_cons_of_mem _ he, jid, sig0, h6, h7⟩
    | stopped sig =>
      have := hterm (wpid, Status.stopped sig) (List.mem_cons_self _ _)
      simp [Status.isStop] at this

/-- C3. In a table of distinct pids, when the first stop event of the
`waitpid` script concerns pid `p`, the events `pre` before it are terminations
of other children (positive pids, each child once), and `p` is the pid of job
`J` in slot `i`, one invocation of `sigchld_handler` returns normally with:
the slots of the children of `pre` freed and every other slot as it was, except
slot `i`, which holds `J` in state ST with its pid, jid and command line; one
line `Job [jid] (pid) terminated by signal N` printed for each child of `pre`
killed by a signal, followed by exactly one line
`Job [jid] (pid) stopped by signal N` with the jid of `J`; the jid counter, the
signals sent, the signal mask and errno as before. The result does not mention
the events `post` after the stop event nor the final return of `waitpid`: they
are not consumed. -/
theorem sigchld_handler_first_stop (s : Shell) (pre post : List (Int × Status))
    (p sig : Int) (fin : WaitFinal) (i : Nat) (J : job_t) (hu : PidsUnique s.jobs)
    (hpos : ∀ e ∈ pre, 0 < e.1) (hterm : ∀ e ∈ pre, e.2.isStop = false)
    (hnd : (pre.map Prod.fst).Nodup) (hp : 0 < p)
    (hfresh : p ∉ pre.map Prod.fst) (hi : getjobpid s.jobs p = some i)
    (hJ : s.jobs.slots[i]? = some (some J)) :
    sigchld_handler s (pre ++ (p, Status.stopped sig) :: post) fin =
      ({ jobs := { slots := (s.jobs.slots.map (keepOutside (pre.map Prod.fst))).set i
                              (some { pid := J.pid, jid := J.jid, state := JobState.ST,
                                      cmdline := J.cmdline }),
                   nextjid := s.jobs.nextjid },
         out := s.out ++
           pre.filterMap (fun e =>
             match e.2 with
             | Status.signaled sg =>
               some ("Job [" ++ toString (pid2jid s.jobs e.1) ++ "] (" ++ toString e.1 ++
                     ") terminated by signal " ++ toString sg ++ "\n")
             | _ => none) ++
           ["Job [" ++ toString J.jid ++ "] (" ++ toString p ++ ") stopped by signal " ++
              toString sig ++ "\n"],
         sent := s.sent, blocked := s.blocked, errno := s.errno },
       Outcome.returned) ∧
    J.pid = p ∧
    (∀ e ∈ pre,
      getjobpid (sigchld_handler s (pre ++ (p, Status.stopped sig) :: post) fin).1.jobs e.1 =
        none) ∧
    (sigchld_handler s (pre ++ (p, Status.stopped sig) :: post) fin).1.jobs.slots[i]? =
      some (some { pid := J.pid, jid := J.jid, state := JobState.ST,
                   cmdline := J.cmdline }) ∧
    (∀ (k : Nat) (j : job_t), k ≠ i → s.jobs.slots[k]? = some (some j) →
      j.pid ∉ pre.map Prod.fst →
      (sigchld_handler s (pre ++ (p, Status.stopped sig) :: post) fin).1.jobs.slots[k]? =
        some (some j)) := by
  obtain ⟨_, happ⟩ := reap_append pre ((p, Status.stopped sig) :: post) s hpos hterm
  obtain ⟨h1, h2, hn, h3, h4, h5, _⟩ := reap_keeps_job pre p i J s hpos hterm hfresh hi hJ
  obtain ⟨_, hslots, hout, _, _, _⟩ := reap_terminated pre s hu hpos hterm hnd
  have hJp : J.pid = p := by
    obtain ⟨j0, hj0, hp0⟩ := findJob_get hi
    rw [hJ] at hj0
    cases hj0
    simpa using hp0
  have hjid : pid2jid (reap s pre).1.jobs p = J.jid := by
    simp [pid2jid, h1, jobAt, h2]
  have hlt : i < (s.jobs.slots.map (keepOutside (pre.map Prod.fst))).length := by
    rw [← hslots]
    by_contra hge
    rw [List.getElem?_eq_none (by omega)] at h2
    cases h2
  have heq0 : sigchld_handler s (pre ++ (p, Status.stopped sig) :: post) fin =
      ({ jobs := { slots := (reap s pre).1.jobs.slots.set i
                              (some { J with state := JobState.ST }),
                   nextjid := (reap s pre).1.jobs.nextjid },
         out := (reap s pre).1.out ++ [stoppedLine J.jid p sig],
         sent := s.sent, blocked := s.blocked, errno := s.errno },
       Outcome.returned) := by
    unfold sigchld_handler
    rw [happ]
    simp only [reap, hp, if_true, printf, h1, hjid, setState, jobAt, h2, Option.join, h3, h4,
      h5, Option.some_bind, id]
  rw [hslots, hout, hn] at heq0
  have heq : sigchld_handler s (pre ++ (p, Status.stopped sig) :: post) fin =
      ({ jobs := { slots := (s.jobs.slots.map (keepOutside (pre.map Prod.fst))).set i
                              (some { pid := J.pid, jid := J.jid, state := JobState.ST,
                                      cmdline := J.cmdline }),
                   nextjid := s.jobs.nextjid },
         out := s.out ++
           pre.filterMap (fun e =>
             match e.2 with
             | Status.signaled sg =>
               some ("Job [" ++ toString (pid2jid s.jobs e.1) ++ "] (" ++ toString e.1 ++
                     ") terminated by signal " ++ toString sg ++ "\n")
             | _ => none) ++
           ["Job [" ++ toString J.jid ++ "] (" ++ toString p ++ ") stopped by signal " ++
              toString sig ++ "\n"],
         sent := s.sent, blocked := s.blocked, errno := s.errno },
       Outcome.returned) := heq0
  refine ⟨heq, hJp, ?_, ?_, ?_⟩
  · intro e he
    rw [heq]
    apply findJob_none
    intro j hjm
    simp only at hjm
    have hne : j.pid ≠ e.1 := by
      rcases List.mem_or_eq_of_mem_set hjm with hm | hm
      · have h6 := ((mem_map_keepOutside _ _ j).1 hm).2
        intro h7
        exact h6 (h7 ▸ List.mem_map_of_mem _ he)
      · simp only [Option.some.injEq] at hm
        subst hm
        simp only
        rw [hJp]
        intro h7
        exact hfresh (h7 ▸ List.mem_map_of_mem _ he)
    simpa using hne
  · rw [heq]
    simp only
    rw [List.getElem?_set_self hlt]
  · intro k j hk hkj hjp
    rw [heq]
    simp only
    rw [List.getElem?_set_ne (Ne.symm hk), List.getElem?_map, hkj]
    simp [keepOutside, hjp]

theorem sigchld_handler_first_stop_witness :
    (PidsUnique demoShell.jobs ∧
      (∀ e ∈ [((34 : Int), Status.signaled 9)], 0 < e.1) ∧
      (∀ e ∈ [((34 : Int), Status.signaled 9)], e.2.isStop = false) ∧
      ([((34 : Int), Status.signaled 9)].map Prod.fst).Nodup ∧ (0 : Int) < 12 ∧
      (12 : Int) ∉ [((34 : Int), Status.signaled 9)].map Prod.fst ∧
      getjobpid demoShell.jobs 12 = some 0 ∧
      demoShell.jobs.slots[0]? = some (some demoJob)) ∧
    sigchld_handler demoShell
        ([(34, Status.signaled 9)] ++ (12, Status.stopped 20) :: [(56, Status.exited 0)])
        (WaitFinal.fail 4) =
      ({ jobs := { slots := [some { pid := 12, jid := 1, state := JobState.ST,
                                    cmdline := "/bin/sleep 5\n" }, none, none],
                   nextjid := 3 },
         out := ["Job [2] (34) terminated by signal 9\n",
                 "Job [1] (12) stopped by signal 20\n"],
         sent := [], blocked := false, errno := 0 },
       Outcome.returned) :=
  ⟨⟨by decide, by decide, by decide, by decide, by decide, by decide, by decide, by decide⟩,
   (sigchld_handler_first_stop demoShell [(34, Status.signaled 9)] [(56, Status.exited 0)]
     12 20 (WaitFinal.fail 4) 0 demoJob (by decide) (by decide) (by decide) (by decide)
     (by decide) (by decide) (by decide) (by decide)).1.trans (by decide)⟩

/-- C9, the failing input. errno holds 25 (ENOTTY) from an earlier call when
SIGCHLD arrives and `waitpid` returns 0 at once (children exist, none changed
state): `waitpid` did not fail, yet the handler takes the fatal exit
`unix_error("waitpid error")`. -/
theorem sigchld_handler_stale_errno_is_fatal :
    sigchld_handler { demoShell with errno := 25 } [] WaitFinal.zero =
      ({ demoShell with errno := 25 }, Outcome.fatal "waitpid error") := by
  decide

/-- C10, the failing input. With a table of one slot already taken by a
background job, `eval` of another external command blocks SIGCHLD, forks, fails
in `addjob` and returns to the read loop with SIGCHLD still blocked. -/
theorem eval_full_table_leaves_SIGCHLD_blocked :
    (run (startConfig 1 0)
      [Action.command ["/bin/sleep", "5"] true "/bin/sleep 5 &\n", Action.fork_returns 100,
       Action.advance, Action.advance, Action.advance,
       Action.command ["/bin/ls"] false "/bin/ls\n", Action.fork_returns 101,
       Action.advance]).map (fun c => (c.pc, c.sh.blocked, c.sh.jobs.slots.map
         (Option.map (fun j => j.pid)))) =
      some (Pc.read_loop, true, [some 100]) := by
  decide

/-! ## Foreground jobs -/

theorem fgOf_cons (a : Option job_t) (l : List (Option job_t)) :
    fgOf (a :: l) = fgOf [a] ++ fgOf l := by
  cases a with
  | none => simp [fgOf]
  | some j =>
    by_cases h : j.state = JobState.FG <;> simp [fgOf, List.filter_cons, h]

theorem fgOf_set_sublist (x : Option job_t) (hx : fgOf [x] = []) (l : List (Option job_t)) :
    ∀ i, (fgOf (l.set i x)).Sublist (fgOf l) := by
  induction l with
  | nil => intro i; simp
  | cons a rest ih =>
    intro i
    cases i with
    | zero =>
      rw [List.set_cons_zero, fgOf_cons x, fgOf_cons a, hx]
      exact List.sublist_append_right _ _
    | succ i =>
      rw [List.set_cons_succ, fgOf_cons a, fgOf_cons a (rest)]
      exact List.Sublist.append (List.Sublist.refl _) (ih i)

theorem fgOf_set_of_nil (x : Option job_t) (l : List (Option job_t)) (hl : fgOf l = []) :
    ∀ i, (fgOf (l.set i x)).Sublist (fgOf [x]) := by
  induction l with
  | nil => intro i; simp [fgOf]
  | cons a rest ih =>
    intro i
    rw [fgOf_cons] at hl
    obtain ⟨ha, hr⟩ := List.append_eq_nil.1 hl
    cases i with
    | zero =>
      rw [List.set_cons_zero, fgOf_cons x, hr, List.append_nil]
    | succ i =>
      rw [List.set_cons_succ, fgOf_cons a, ha, List.nil_append]
      exact ih hr i

theorem fgJobs_deletejob (t : JobTable) (q : Int) :
    (fgJobs (deletejob t q)).Sublist (fgJobs t) := by
  unfold deletejob
  cases getjobpid t q with
  | none => exact List.Sublist.refl _
  | some i => exact fgOf_set_sublist none rfl t.slots i

theorem fgJobs_setState_sublist (t : JobTable) (i : Nat) (st : JobState)
    (hst : st ≠ JobState.FG) : (fgJobs (setState t i st)).Sublist (fgJobs t) := by
  unfold setState
  cases jobAt t i with
  | none => exact fgOf_set_sublist _ (by simp [fgOf, hst]) t.slots i
  | some j => exact fgOf_set_sublist _ (by simp [fgOf, hst]) t.slots i

theorem setState_slots (t : JobTable) (i : Nat) (st : JobState) :
    ∃ x : job_t, x.state = st ∧ (setState t i st).slots = t.slots.set i (some x) := by
  unfold setState
  cases jobAt t i with
  | none => exact ⟨_, rfl, rfl⟩
  | some j => exact ⟨_, rfl, rfl⟩

theorem fgJobs_setState_of_nil (t : JobTable) (i : Nat) (st : JobState)
    (hl : fgJobs t = []) : (fgJobs (setState t i st)).length ≤ 1 := by
  obtain ⟨x, _, hx⟩ := setState_slots t i st
  have h := fgOf_set_of_nil (some x) t.slots hl i
  have h2 : (fgOf [some x]).length ≤ 1 := by
    by_cases hs : x.state = JobState.FG <;> simp [fgOf, hs]
  have : fgJobs (setState t i st) = fgOf (t.slots.set i (some x)) := by
    simp [fgJobs, fgOf, hx]
  rw [this]
  exact le_trans h.length_le h2

theorem mem_fgJobs_iff (t : JobTable) (j : job_t) :
    j ∈ fgJobs t ↔ ∃ k : Nat, t.slots[k]? = some (some j) ∧ j.state = JobState.FG := by
  simp only [fgJobs, List.mem_filter, List.mem_filterMap, id, beq_iff_eq]
  constructor
  · rintro ⟨⟨a, ha, rfl⟩, hs⟩
    obtain ⟨k, hk⟩ := List.mem_iff_getElem?.1 ha
    exact ⟨k, hk, hs⟩
  · rintro ⟨k, hk, hs⟩
    exact ⟨⟨some j, List.getElem?_mem hk, rfl⟩, hs⟩

theorem setState_fg_only (t : JobTable) (i : Nat) (st : JobState) (hl : fgJobs t = [])
    (k : Nat) (j : job_t) (hk : (setState t i st).slots[k]? = some (some j))
    (hs : j.state = JobState.FG) : k = i := by
  obtain ⟨x, _, hx⟩ := setState_slots t i st
  by_contra hne
  rw [hx, List.getElem?_set_ne (Ne.symm hne)] at hk
  have : j ∈ fgJobs t := (mem_fgJobs_iff t j).2 ⟨k, hk, hs⟩
  rw [hl] at this
  cases this

theorem fgKept_refl (t : JobTable) : FgKept t t := fun _ _ h _ => h

theorem fgKept_trans {t1 t2 t3 : JobTable} (h12 : FgKept t1 t2) (h23 : FgKept t2 t3) :
    FgKept t1 t3 := fun k j h hs => h12 k j (h23 k j h hs) hs

theorem fgKept_set (t : JobTable) (i : Nat) (x : Option job_t) (n : Int)
    (hx : ∀ j, x = some j → j.state ≠ JobState.FG) :
    FgKept t { slots := t.slots.set i x, nextjid := n } := by
  intro k j hk hs
  simp only at hk
  by_cases hki : i = k
  · subst hki
    by_cases hlt : i < t.slots.length
    · rw [List.getElem?_set_self hlt] at hk
      simp only [Option.some.injEq] at hk
      exact absurd hs (hx j hk)
    · rw [List.getElem?_eq_none (by simpa using hlt)] at hk
      cases hk
  · rw [List.getElem?_set_ne hki] at hk
    exact hk

theorem fgKept_deletejob (t : JobTable) (q : Int) : FgKept t (deletejob t q) := by
  unfold deletejob
  cases getjobpid t q with
  | none => exact fgKept_refl t
  | some i => exact fgKept_set t i none _ (fun j hj => by cases hj)

theorem fgKept_setState (t : JobTable) (i : Nat) (st : JobState) (hst : st ≠ JobState.FG) :
    FgKept t (setState t i st) := by
  unfold setState
  cases jobAt t i with
  | none =>
    exact fgKept_set t i _ _ (fun j hj => by
      simp only [Option.some.injEq] at hj; subst hj; exact hst)
  | some j0 =>
    exact fgKept_set t i _ _ (fun j hj => by
      simp only [Option.some.injEq] at hj; subst hj; exact hst)

theorem fgJobs_addjob (t t2 : JobTable) (pid : Int) (st : JobState) (cl : String)
    (h : addjob t pid st cl = some t2) (hl : fgJobs t = []) :
    (fgJobs t2).Sublist (fgOf [some { pid := pid, jid := t.nextjid, state := st,
                                      cmdline := cl }]) := by
  unfold addjob at h
  cases hf : findFree t.slots with
  | none => rw [hf] at h; cases h
  | some i =>
    rw [hf] at h
    simp only [Option.some.injEq] at h
    subst h
    exact fgOf_set_of_nil _ t.slots hl i

theorem fgJobs_reap (evs : List (Int × Status)) :
    ∀ s : Shell, (fgJobs (reap s evs).1.jobs).Sublist (fgJobs s.jobs) := by
  induction evs with
  | nil => intro s; exact List.Sublist.refl _
  | cons e rest ih =>
    intro s
    obtain ⟨wpid, status⟩ := e
    by_cases hw : 0 < wpid
    · cases status with
      | exited code =>
        simp only [reap, hw, if_true]
        exact (ih _).trans (fgJobs_deletejob s.jobs wpid)
      | signaled sig =>
        simp only [reap, hw, if_true]
        exact (ih _).trans (fgJobs_deletejob s.jobs wpid)
      | stopped sig =>
        simp only [reap, hw, if_true, printf]
        cases getjobpid s.jobs wpid with
        | none => exact List.Sublist.refl _
        | some jobp => exact fgJobs_setState_sublist s.jobs jobp JobState.ST (by decide)
    · simp only [reap, hw, if_false]
      exact List.Sublist.refl _

theorem fgKept_reap (evs : List (Int × Status)) :
    ∀ s : Shell, FgKept s.jobs (reap s evs).1.jobs := by
  induction evs with
  | nil => intro s; exact fgKept_refl _
  | cons e rest ih =>
    intro s
    obtain ⟨wpid, status⟩ := e
    by_cases hw : 0 < wpid
    · cases status with
      | exited code =>
        simp only [reap, hw, if_true]
        exact fgKept_trans (fgKept_deletejob s.jobs wpid) (ih _)
      | signaled sig =>
        simp only [reap, hw, if_true]
        exact fgKept_trans (fgKept_deletejob s.jobs wpid) (ih _)
      | stopped sig =>
        simp only [reap, hw, if_true, printf]
        cases getjobpid s.jobs wpid with
        | none => exact fgKept_refl _
        | some jobp => exact fgKept_setState s.jobs jobp JobState.ST (by decide)
    · simp only [reap, hw, if_false]
      exact fgKept_refl _

theorem sigchld_handler_jobs (s : Shell) (evs : List (Int × Status)) (fin : WaitFinal) :
    (sigchld_handler s evs fin).1.jobs = (reap s evs).1.jobs := by
  unfold sigchld_handler
  cases hr : reap s evs with
  | mk s1 ex =>
    cases ex with
    | done =>
      cases fin <;> simp only <;> split <;> try split
      all_goals rfl
    | stop_return => rfl
    | null_deref => rfl

theorem fgJobs_sigchld_handler (s : Shell) (evs : List (Int × Status)) (fin : WaitFinal) :
    (fgJobs (sigchld_handler s evs fin).1.jobs).Sublist (fgJobs s.jobs) := by
  rw [sigchld_handler_jobs]
  exact fgJobs_reap evs s

theorem fgKept_sigchld_handler (s : Shell) (evs : List (Int × Status)) (fin : WaitFinal) :
    FgKept s.jobs (sigchld_handler s evs fin).1.jobs := by
  rw [sigchld_handler_jobs]
  exact fgKept_reap evs s

theorem sigint_handler_jobs (s : Shell) (sig : Int) : (sigint_handler s sig).jobs = s.jobs := by
  by_cases h0 : fgpid s.jobs = 0 <;> simp [sigint_handler, kill, h0]

theorem sigtstp_handler_jobs (s : Shell) (sig : Int) :
    (sigtstp_handler s sig).jobs = s.jobs := by
  by_cases h0 : fgpid s.jobs = 0 <;> simp [sigtstp_handler, kill, h0]

theorem fgJobs_initjobs (capacity : Nat) : fgJobs (initjobs capacity) = [] := by
  have : ∀ n : Nat, (List.replicate n (none : Option job_t)).filterMap id = [] := by
    intro n
    induction n with
    | zero => rfl
    | succ n ih => simp [List.replicate_succ]
  simp [fgJobs, initjobs, this]

theorem fgJobs_nil_of_fgpid_ne (t : JobTable) (pid : Int) (hne : pid ≠ fgpid t)
    (h : ∀ j ∈ fgJobs t, j.pid = pid) : fgJobs t = [] := by
  have hfg := fgpid_eq t
  cases hl : fgJobs t with
  | nil => rfl
  | cons a rest =>
    rw [hl] at hfg h
    simp only at hfg
    exact absurd (hfg.trans (h a (List.mem_cons_self _ _))).symm hne

/-! ## Invariants of the step machine -/

theorem sublist_singleton_spec {l : List job_t} {x : job_t} (h : l.Sublist [x]) :
    l.length ≤ 1 ∧ ∀ j ∈ l, j = x :=
  ⟨by simpa using h.length_le, fun j hj => by simpa using h.subset hj⟩

theorem do_bgfg_enter_fg (s : Shell) (argv : List String) (hl : fgJobs s.jobs = []) :
    InvFG (do_bgfg_enter s argv) := by
  have hp : ∀ text, InvFG { sh := printf s text, pc := Pc.read_loop } := by
    intro text; simpa [InvFG, printf] using hl
  have hr : ∀ cmd jobp, InvFG { sh := s, pc := Pc.bgfg_resolved cmd jobp } := by
    intro cmd jobp; simpa [InvFG] using hl
  unfold do_bgfg_enter
  split
  · simpa [InvFG] using hl
  · split
    · exact hp _
    · split
      · exact hp _
      · split
        · simp only
          split
          · exact hp _
          · exact hr _ _
        · split
          · simp only
            split
            · exact hp _
            · exact hr _ _
          · exact hp _

theorem do_bgfg_enter_mask (s : Shell) (argv : List String) :
    InvMask (do_bgfg_enter s argv) := by
  have hp : ∀ s1 : Shell, InvMask { sh := s1, pc := Pc.read_loop } := by
    intro s1; simp [InvMask, blockedAt]
  have hr : ∀ cmd jobp, InvMask { sh := s, pc := Pc.bgfg_resolved cmd jobp } := by
    intro cmd jobp; simp [InvMask, blockedAt]
  unfold do_bgfg_enter
  split
  · exact hp _
  · split
    · exact hp _
    · split
      · exact hp _
      · split
        · simp only
          split
          · exact hp _
          · exact hr _ _
        · split
          · simp only
            split
            · exact hp _
            · exact hr _ _
          · exact hp _

theorem eval_enter_cases (s : Shell) (argv : List String) (bg : Bool) (cl : String) :
    eval_enter s argv bg cl = { sh := s, pc := Pc.read_loop } ∨
    eval_enter s argv bg cl = { sh := s, pc := Pc.exited } ∨
    eval_enter s argv bg cl = do_bgfg_enter s argv ∨
    eval_enter s argv bg cl =
      { sh := { s with blocked := true }, pc := Pc.eval_blocked bg cl } := by
  cases argv with
  | nil => exact Or.inl rfl
  | cons cmd rest =>
    by_cases h1 : cmd = "quit"
    · exact Or.inr (Or.inl (by simp [eval_enter, builtin_cmd, h1]))
    · by_cases h2 : cmd = "&"
      · exact Or.inl (by simp [eval_enter, builtin_cmd, h1, h2])
      · by_cases h3 : cmd = "jobs"
        · exact Or.inl (by simp [eval_enter, builtin_cmd, h1, h2, h3])
        · by_cases h4 : cmd = "bg" ∨ cmd = "fg"
          · exact Or.inr (Or.inr (Or.inl (by simp [eval_enter, builtin_cmd, h1, h2, h3, h4])))
          · exact Or.inr (Or.inr (Or.inr (by simp [eval_enter, builtin_cmd, h1, h2, h3, h4])))

theorem eval_enter_fg (s : Shell) (argv : List String) (bg : Bool) (cl : String)
    (hl : fgJobs s.jobs = []) : InvFG (eval_enter s argv bg cl) := by
  rcases eval_enter_cases s argv bg cl with h | h | h | h <;> rw [h]
  · simpa [InvFG] using hl
  · simp [InvFG, hl]
  · exact do_bgfg_enter_fg s argv hl
  · simpa [InvFG] using hl

theorem eval_enter_mask (s : Shell) (argv : List String) (bg : Bool) (cl : String) :
    InvMask (eval_enter s argv bg cl) := by
  rcases eval_enter_cases s argv bg cl with h | h | h | h <;> rw [h]
  · simp [InvMask, blockedAt]
  · simp [InvMask, blockedAt]
  · exact do_bgfg_enter_mask s argv
  · simp [InvMask]

theorem invFG_length (c : Config) (h : InvFG c) : (fgJobs c.sh.jobs).length ≤ 1 := by
  obtain ⟨sh, pc⟩ := c
  cases pc <;> simp only [InvFG] at h <;> first | exact h.1 | exact h | simp [h]

theorem invFG_of_handler (sh sh2 : Shell) (pc : Pc) (h : InvFG { sh := sh, pc := pc })
    (hs : (fgJobs sh2.jobs).Sublist (fgJobs sh.jobs)) (hk : FgKept sh.jobs sh2.jobs) :
    InvFG { sh := sh2, pc := pc } ∧ InvFG { sh := sh2, pc := Pc.exited } := by
  have hlen := invFG_length _ h
  have hlen2 : (fgJobs sh2.jobs).length ≤ 1 := le_trans hs.length_le hlen
  refine ⟨?_, hlen2⟩
  cases pc <;> simp only [InvFG] at h ⊢
  case eval_fg_added pid => exact ⟨hlen2, fun j hj => h.2 j (hs.subset hj)⟩
  case waitfg pid => exact ⟨hlen2, fun j hj => h.2 j (hs.subset hj)⟩
  case bgfg_fg_set jobp => exact ⟨hlen2, fun k j hj hst => h.2 k j (hk k j hj hst) hst⟩
  case exited => exact hlen2
  all_goals exact List.eq_nil_of_sublist_nil (h ▸ hs)

theorem advance_inv (c c2 : Config) (h : advance c = some c2) (hfg : InvFG c)
    (hm : InvMask c) : InvFG c2 ∧ InvMask c2 := by
  obtain ⟨sh, pc⟩ := c
  cases pc with
  | read_loop => simp [advance] at h
  | eval_blocked bg cl => simp [advance] at h
  | exited => simp [advance] at h
  | eval_forked pid bg cl =>
    have hb : sh.blocked = true := hm rfl
    simp only [InvFG] at hfg
    cases bg with
    | false =>
      simp only [advance, Bool.not_false, if_true] at h
      cases ha : addjob sh.jobs pid JobState.FG cl with
      | none =>
        rw [ha] at h
        simp only [Option.some.injEq] at h
        subst h
        exact ⟨hfg, by simp [InvMask, blockedAt]⟩
      | some t =>
        rw [ha] at h
        simp only [Option.some.injEq] at h
        subst h
        have hsub := fgJobs_addjob sh.jobs t pid JobState.FG cl ha hfg
        have hx : fgOf [some (job_t.mk pid sh.jobs.nextjid JobState.FG cl)] =
            [job_t.mk pid sh.jobs.nextjid JobState.FG cl] := by simp [fgOf]
        rw [hx] at hsub
        obtain ⟨h1, h2⟩ := sublist_singleton_spec hsub
        exact ⟨⟨h1, fun j hj => by rw [h2 j hj]⟩, fun _ => hb⟩
    | true =>
      simp only [advance, Bool.not_true, Bool.false_eq_true, if_false] at h
      cases ha : addjob sh.jobs pid JobState.BG cl with
      | none =>
        rw [ha] at h
        simp only [Option.some.injEq] at h
        subst h
        exact ⟨hfg, by simp [InvMask, blockedAt]⟩
      | some t =>
        rw [ha] at h
        simp only [Option.some.injEq] at h
        subst h
        have hsub := fgJobs_addjob sh.jobs t pid JobState.BG cl ha hfg
        have hx : fgOf [some (job_t.mk pid sh.jobs.nextjid JobState.BG cl)] = [] := by
          simp [fgOf]
        rw [hx] at hsub
        exact ⟨List.eq_nil_of_sublist_nil hsub, fun _ => hb⟩
  | eval_fg_added pid =>
    simp only [advance, Option.some.injEq] at h
    subst h
    exact ⟨hfg, by simp [InvMask, blockedAt]⟩
  | eval_bg_added pid cl =>
    simp only [advance, Option.some.injEq] at h
    subst h
    have hb : sh.blocked = true := hm rfl
    exact ⟨hfg, fun _ => hb⟩
  | eval_bg_printed =>
    simp only [advance, Option.some.injEq] at h
    subst h
    exact ⟨hfg, by simp [InvMask, blockedAt]⟩
  | bgfg_resolved cmd jobp =>
    simp only [advance, Option.some.injEq] at h
    subst h
    exact ⟨by simpa [InvFG, kill] using hfg, by simp [InvMask, blockedAt]⟩
  | bgfg_killed cmd jobp =>
    simp only [advance] at h
    split at h
    · simp only [Option.some.injEq] at h
      subst h
      exact ⟨by simpa [InvFG, printf] using hfg, by simp [InvMask, blockedAt]⟩
    · simp only [Option.some.injEq] at h
      subst h
      exact ⟨by simpa [InvFG] using hfg, by simp [InvMask, blockedAt]⟩
  | bgfg_printed cmd jobp =>
    simp only [advance, Option.some.injEq] at h
    subst h
    simp only [InvFG] at hfg
    refine ⟨?_, by simp [InvMask, blockedAt]⟩
    simp only [InvFG]
    exact List.eq_nil_of_sublist_nil
      (hfg ▸ fgJobs_setState_sublist sh.jobs jobp JobState.BG (by decide))
  | bgfg_before_fg cmd jobp =>
    simp only [advance] at h
    simp only [InvFG] at hfg
    split at h
    · simp only [Option.some.injEq] at h
      subst h
      refine ⟨?_, by simp [InvMask, blockedAt]⟩
      simp only [InvFG]
      exact ⟨fgJobs_setState_of_nil sh.jobs jobp JobState.FG hfg,
        fun k j hk hs => setState_fg_only sh.jobs jobp JobState.FG hfg k j hk hs⟩
    · simp only [Option.some.injEq] at h
      subst h
      exact ⟨by simpa [InvFG] using hfg, by simp [InvMask, blockedAt]⟩
  | bgfg_fg_set jobp =>
    simp only [advance, Option.some.injEq] at h
    subst h
    simp only [InvFG] at hfg
    refine ⟨?_, by simp [InvMask, blockedAt]⟩
    simp only [InvFG]
    refine ⟨hfg.1, ?_⟩
    intro j hj
    obtain ⟨k, hk, hs⟩ := (mem_fgJobs_iff sh.jobs j).1 hj
    have := hfg.2 k j hk hs
    subst this
    simp [pidAt, jobAt, hk]
  | waitfg pid =>
    simp only [advance] at h
    by_cases hw : waitfg_spins sh pid = true
    · simp only [hw, if_true, Option.some.injEq] at h
      subst h
      exact ⟨hfg, hm⟩
    · simp only [hw, if_false, Option.some.injEq, Bool.false_eq_true] at h
      subst h
      simp only [InvFG] at hfg
      have hne : pid ≠ fgpid sh.jobs := by simpa [waitfg_spins] using hw
      exact ⟨fgJobs_nil_of_fgpid_ne sh.jobs pid hne hfg.2, by simp [InvMask, blockedAt]⟩

/-- One step of the shell process keeps both invariants. -/
theorem step_inv (c c2 : Config) (a : Action) (h : step c a = some c2) (hfg : InvFG c)
    (hm : InvMask c) : InvFG c2 ∧ InvMask c2 := by
  cases a with
  | command argv bg cl =>
    simp only [step] at h
    split at h
    · rename_i hpc
      simp only [Option.some.injEq] at h
      subst h
      obtain ⟨sh, pc⟩ := c
      simp only at hpc
      subst hpc
      exact ⟨eval_enter_fg sh argv bg cl hfg, eval_enter_mask sh argv bg cl⟩
    · cases h
  | fork_returns pid =>
    obtain ⟨sh, pc⟩ := c
    cases pc <;> simp only [step] at h <;> try cases h
    split at h
    · simp only [Option.some.injEq] at h
      subst h
      exact ⟨hfg, fun _ => hm rfl⟩
    · cases h
  | advance => exact advance_inv c c2 h hfg hm
  | sigchld evs fin =>
    obtain ⟨sh, pc⟩ := c
    simp only [step] at h
    split at h
    · cases h
    · rename_i hg
      simp only [not_or, Bool.not_eq_true] at hg
      have hsub := fgJobs_sigchld_handler sh evs fin
      have hkept := fgKept_sigchld_handler sh evs fin
      have hnb : blockedAt pc = false := by
        cases hb : blockedAt pc with
        | false => rfl
        | true => have := hm hb; simp only at this; rw [this] at hg; exact absurd hg.2 (by simp)
      cases hr : sigchld_handler sh evs fin with
      | mk s1 oc =>
        rw [hr] at h hsub hkept
        obtain ⟨hA, hB⟩ := invFG_of_handler sh s1 pc hfg hsub hkept
        cases oc with
        | returned =>
          simp only [Option.some.injEq] at h
          subst h
          exact ⟨hA, fun hb => by simp only at hb; rw [hnb] at hb; cases hb⟩
        | fatal msg =>
          simp only [Option.some.injEq] at h
          subst h
          exact ⟨hB, by simp [InvMask, blockedAt]⟩
        | segfault =>
          simp only [Option.some.injEq] at h
          subst h
          exact ⟨hB, by simp [InvMask, blockedAt]⟩
  | sigint sig =>
    obtain ⟨sh, pc⟩ := c
    simp only [step] at h
    split at h
    · cases h
    · simp only [Option.some.injEq] at h
      subst h
      have hj := sigint_handler_jobs sh sig
      refine ⟨(invFG_of_handler sh _ pc hfg (by rw [hj]) (by rw [hj]; exact fgKept_refl _)).1,
        ?_⟩
      intro hb
      have := hm hb
      by_cases h0 : fgpid sh.jobs = 0 <;> simpa [sigint_handler, kill, h0] using this
  | sigtstp sig =>
    obtain ⟨sh, pc⟩ := c
    simp only [step] at h
    split at h
    · cases h
    · simp only [Option.some.injEq] at h
      subst h
      have hj := sigtstp_handler_jobs sh sig
      refine ⟨(invFG_of_handler sh _ pc hfg (by rw [hj]) (by rw [hj]; exact fgKept_refl _)).1,
        ?_⟩
      intro hb
      have := hm hb
      by_cases h0 : fgpid sh.jobs = 0 <;> simpa [sigtstp_handler, kill, h0] using this

theorem run_inv (acts : List Action) :
    ∀ c c2 : Config, run c acts = some c2 → InvFG c → InvMask c → InvFG c2 ∧ InvMask c2 := by
  induction acts with
  | nil =>
    intro c c2 h hfg hm
    simp only [run, Option.some.injEq] at h
    subst h
    exact ⟨hfg, hm⟩
  | cons a rest ih =>
    intro c c2 h hfg hm
    simp only [run] at h
    cases hs : step c a with
    | none => rw [hs] at h; cases h
    | some c1 =>
      rw [hs] at h
      obtain ⟨h1, h2⟩ := step_inv c c1 a hs hfg hm
      exact ih c1 c2 h h1 h2

theorem startConfig_inv (capacity : Nat) (errno0 : Int) :
    InvFG (startConfig capacity errno0) ∧ InvMask (startConfig capacity errno0) :=
  ⟨by simpa [InvFG, startConfig] using fgJobs_initjobs capacity,
   by simp [InvMask, startConfig, blockedAt]⟩

/-- C1. In every state the shell process reaches from the empty job table by
any sequence of steps, at most one job of the table is in state FG. The steps
are: a command entered at the read loop (an external command in the foreground
or background, a builtin); each statement of `eval`; each statement of
`do_bgfg` after `jobp` is resolved (the `kill`, the print, each write of the
state and each read of the pid through `jobp`); each test of the loop of
`waitfg`; and, between any two of them, a run of `sigint_handler` or
`sigtstp_handler`, or of `sigchld_handler` on any `waitpid` script wherever
SIGCHLD is not blocked. Whenever the main flow is back in the read loop no job
is in state FG, and while it is in `waitfg(pid)` a job in state FG has that
pid. -/
theorem at_most_one_foreground_job (capacity : Nat) (errno0 : Int) (acts : List Action)
    (c : Config) (h : run (startConfig capacity errno0) acts = some c) :
    (fgJobs c.sh.jobs).length ≤ 1 ∧
    (c.pc = Pc.read_loop → fgJobs c.sh.jobs = []) ∧
    (∀ pid, c.pc = Pc.waitfg pid → ∀ j ∈ fgJobs c.sh.jobs, j.pid = pid) := by
  obtain ⟨h0, h1⟩ := startConfig_inv capacity errno0
  obtain ⟨hfg, _⟩ := run_inv acts _ c h h0 h1
  refine ⟨invFG_length c hfg, ?_, ?_⟩
  · intro hpc
    obtain ⟨sh, pc⟩ := c
    simp only at hpc
    subst hpc
    exact hfg
  · intro pid hpc
    obtain ⟨sh, pc⟩ := c
    simp only at hpc
    subst hpc
    exact hfg.2

theorem at_most_one_foreground_job_witness :
    run (startConfig 2 0) demoStaleRun = some demoStale ∧
    ((fgJobs demoStale.sh.jobs).length ≤ 1 ∧
    (demoStale.pc = Pc.read_loop → fgJobs demoStale.sh.jobs = []) ∧
    (∀ pid, demoStale.pc = Pc.waitfg pid → ∀ j ∈ fgJobs demoStale.sh.jobs, j.pid = pid)) :=
  ⟨by decide, at_most_one_foreground_job 2 0 demoStaleRun demoStale (by decide)⟩

theorem builtin_cmd_external (s : Shell) (argv : List String)
    (h : (builtin_cmd s argv).2 = Builtin.external) :
    builtin_cmd s argv = (s, Builtin.external) := by
  cases argv with
  | nil => rfl
  | cons cmd rest =>
    by_cases h1 : cmd = "quit"
    · simp [builtin_cmd, h1] at h
    · by_cases h2 : cmd = "&"
      · simp [builtin_cmd, h1, h2] at h
      · by_cases h3 : cmd = "jobs"
        · simp [builtin_cmd, h1, h2, h3] at h
        · by_cases h4 : cmd = "bg" ∨ cmd = "fg"
          · simp [builtin_cmd, h1, h2, h3, h4] at h
          · simp [builtin_cmd, h1, h2, h3, h4]

/-! ## The steps of do_bgfg against the function -/

theorem settle_resolved (s : Shell) (cmd : String) (jobp : Nat) (j : job_t)
    (hj : s.jobs.slots[jobp]? = some (some j)) :
    settle 4 { sh := s, pc := Pc.bgfg_resolved cmd jobp } = afterDoBgfg (resume s cmd jobp) := by
  have hlt : jobp < s.jobs.slots.length := by
    by_contra hge
    rw [List.getElem?_eq_none (by omega)] at hj
    cases hj
  by_cases hb : cmd = "bg"
  · have hf : ¬ ("bg" = "fg") := by decide
    subst hb
    simp [settle, advance, resume, afterDoBgfg, pidAt, jobAt, hj, kill, printf, setState, hf]
  · by_cases hf : cmd = "fg"
    · subst hf
      simp [settle, advance, resume, afterDoBgfg, pidAt, jobAt, hj, kill, setState, hb,
        List.getElem?_set_self hlt]
    · simp [settle, advance, resume, afterDoBgfg, pidAt, jobAt, hj, kill, hb, hf]

/-- Run without interruption, the steps of `do_bgfg` in the machine do what the
function `do_bgfg` does. -/
theorem do_bgfg_steps_agree (s : Shell) (argv : List String) :
    settle 4 (do_bgfg_enter s argv) = afterDoBgfg (do_bgfg s argv) := by
  have hp : ∀ s1 : Shell, settle 4 { sh := s1, pc := Pc.read_loop } =
      afterDoBgfg (s1, none) := by
    intro s1; simp [settle, afterDoBgfg]
  unfold do_bgfg_enter do_bgfg
  split
  · exact hp _
  · split
    · exact hp _
    · split
      · exact hp _
      · split
        · simp only
          split
          · exact hp _
          · rename_i jobp hg
            obtain ⟨j, hj, _⟩ := findJob_get hg
            exact settle_resolved s _ jobp j hj
        · split
          · simp only
            split
            · exact hp _
            · rename_i jobp hg
              obtain ⟨j, hj, _⟩ := findJob_get hg
              exact settle_resolved s _ jobp j hj
          · exact hp _

/-- C8. In every state the shell process reaches from the empty job table:
at each program point of `eval` from the blocking of SIGCHLD, before the fork,
to the unblocking after `addjob` has returned (`blockedAt`: before
`spawn_child`, with the child pid obtained and not yet registered, with the job
registered) SIGCHLD is blocked and no run of `sigchld_handler` is a possible
step; a command that is not a builtin takes the main flow from the read loop
to the first of these points, blocking SIGCHLD; and `Fork()` returns a pid only
at that point, leading to the second. -/
theorem sigchld_blocked_from_fork_to_addjob (capacity : Nat) (errno0 : Int)
    (acts : List Action) (c : Config) (h : run (startConfig capacity errno0) acts = some c) :
    (blockedAt c.pc = true →
      c.sh.blocked = true ∧ ∀ evs fin, step c (Action.sigchld evs fin) = none) ∧
    (∀ argv bg cmdline, c.pc = Pc.read_loop → argv ≠ [] →
      (builtin_cmd c.sh argv).2 = Builtin.external →
      step c (Action.command argv bg cmdline) =
        some { sh := { c.sh with blocked := true }, pc := Pc.eval_blocked bg cmdline }) ∧
    (∀ pid c2, step c (Action.fork_returns pid) = some c2 →
      ∃ bg cmdline, c.pc = Pc.eval_blocked bg cmdline ∧
        c2 = { sh := c.sh, pc := Pc.eval_forked pid bg cmdline }) := by
  obtain ⟨h0, h1⟩ := startConfig_inv capacity errno0
  obtain ⟨_, hm⟩ := run_inv acts _ c h h0 h1
  refine ⟨?_, ?_, ?_⟩
  · intro hpc
    have hb := hm hpc
    exact ⟨hb, fun evs fin => by simp [step, hb]⟩
  · intro argv bg cmdline hpc hne hext
    have hbi := builtin_cmd_external c.sh argv hext
    cases argv with
    | nil => exact absurd rfl hne
    | cons cmd rest => simp [step, hpc, eval_enter, hbi]
  · intro pid c2 hs
    obtain ⟨sh, pc⟩ := c
    cases pc <;> simp only [step] at hs <;> try cases hs
    split at hs
    · simp only [Option.some.injEq] at hs
      exact ⟨_, _, rfl, hs.symm⟩
    · cases hs

theorem sigchld_blocked_from_fork_to_addjob_witness :
    run (startConfig 2 0)
      [Action.command ["/bin/sleep", "5"] false "/bin/sleep 5\n", Action.fork_returns 100] =
      some demoForked ∧
    ((blockedAt demoForked.pc = true →
      demoForked.sh.blocked = true ∧
        ∀ evs fin, step demoForked (Action.sigchld evs fin) = none) ∧
    (∀ argv bg cmdline, demoForked.pc = Pc.read_loop → argv ≠ [] →
      (builtin_cmd demoForked.sh argv).2 = Builtin.external →
      step demoForked (Action.command argv bg cmdline) =
        some { sh := { demoForked.sh with blocked := true },
               pc := Pc.eval_blocked bg cmdline }) ∧
    (∀ pid c2, step demoForked (Action.fork_returns pid) = some c2 →
      ∃ bg cmdline, demoForked.pc = Pc.eval_blocked bg cmdline ∧
        c2 = { sh := demoForked.sh, pc := Pc.eval_forked pid bg cmdline })) :=
  ⟨by decide,
   sigchld_blocked_from_fork_to_addjob 2 0
     [Action.command ["/bin/sleep", "5"] false "/bin/sleep 5\n", Action.fork_returns 100]
     demoForked (by decide)⟩

end Tsh
